import Mathlib

/-!
Verification of the run-length-encoded (RLE) container of a roaring-bitmap
library: `src/roaring/src/bitmap/store/rle_store/{interval,mod,ops,visitor}.rs`.

Machine integers (`u16`) are embedded as `Nat` with explicit arithmetic:
* `wadd`/`wsub` are wrapping (release-build) 16-bit addition/subtraction;
* `cadd`/`csub` are checked addition (`none` on overflow, the debug-build
  panic / the source's explicit `checked_sub`).
Fallible code (vector indexing, `unwrap`, `assert!`, debug overflow) is
embedded in `Option`: a `none` result marks a panic of the Rust code.
`i32` indices are embedded as `Int` (a store holds at most 32768 intervals,
so `i32`/`usize` conversions never overflow and are kept exact).
-/

namespace Rle

/-- Wrapping 16-bit addition (`u16` `+` in a release build). -/
def wadd (a b : Nat) : Nat := (a + b) % 65536

/-- Wrapping 16-bit subtraction (`u16` `-` in a release build); callers pass
values below 2^16. -/
def wsub (a b : Nat) : Nat := (a + 65536 - b) % 65536

/-- Checked 16-bit addition: `none` models the debug-build overflow panic. -/
def cadd (a b : Nat) : Option Nat := if a + b ≤ 65535 then some (a + b) else none

/-- `u16::checked_sub`. -/
def csub (a b : Nat) : Option Nat := if b ≤ a then some (a - b) else none

/-- `Option<u16>` ordering as used by `offset <= Some(len)`: `None` is least. -/
def optLe : Option Nat → Option Nat → Bool
  | none, _ => true
  | some _, none => false
  | some a, some b => decide (a ≤ b)

/-- `u16::cmp` (`Ord` on unsigned integers). -/
def natCompare (a b : Nat) : Ordering :=
  if a < b then Ordering.lt else if a = b then Ordering.eq else Ordering.gt

/-- Modelled from the spec: `crate::bitmap::util::minmax` is not under `src/`;
per the spec's sweep descriptions it returns the two arguments as
(lower, higher). -/
def minmax (a b : Nat) : Nat × Nat := if a ≤ b then (a, b) else (b, a)

/-- `Interval` (interval.rs): a run-length pair representing `[value, value+length]`. -/
structure Interval where
  value : Nat
  length : Nat
deriving Repr, DecidableEq

/-- `Interval::get_end` (interval.rs line 21): `value + length` in `u16`. -/
def Interval.getEnd (i : Interval) : Nat := wadd i.value i.length

/-- `Interval::get_pair` (interval.rs line 17). -/
def Interval.getPair (i : Interval) : Nat × Nat := (i.value, wadd i.value i.length)

/-- `From<u16> for Interval` (interval.rs line 78). -/
def Interval.fromKey (v : Nat) : Interval := ⟨v, 0⟩

/-- `From<(u16, u16)> for Interval` (interval.rs line 84): length is the
`u16` difference `pair.1 - pair.0`. -/
def Interval.fromPair (p : Nat × Nat) : Interval := ⟨p.1, wsub p.2 p.1⟩

/-- `Interval::compare_to_index` (interval.rs lines 38-49). -/
def Interval.compareToIndex (i : Interval) (key : Nat) : Ordering :=
  if key < i.value then Ordering.gt
  else if key ≤ i.getEnd then Ordering.eq
  else Ordering.lt

/-- `Interval::try_fuse` (interval.rs lines 62-75). -/
def Interval.tryFuse (self : Interval) (other : Option Interval) : Option Interval :=
  match other with
  | none => none
  | some other =>
      let thisStart := self.getPair.1
      let thisEnd := self.getPair.2
      let otherStart := other.getPair.1
      let otherEnd := other.getPair.2
      if csub otherStart thisEnd = some 2 then
        some (Interval.fromPair (thisStart, otherEnd))
      else if csub thisStart otherEnd = some 2 then
        some (Interval.fromPair (otherStart, thisEnd))
      else none

/-- `RunStore` (mod.rs line 7). -/
structure RunStore where
  vec : List Interval
deriving Repr, DecidableEq

/-- `RunStore::new`. -/
def RunStore.new : RunStore := ⟨[]⟩

/-- Core loop of Rust `slice::binary_search_by`: `left`/`right` bracket the
search, `mid = left + (right - left) / 2`; the fuel argument bounds the
iteration count (the caller passes `length + 1`, which always suffices). -/
def bsGo (cmp : Nat → Ordering) : Nat → Nat → Nat → Except Nat Nat
  | 0, left, _ => Except.error left
  | fuel + 1, left, right =>
      if left < right then
        let mid := left + (right - left) / 2
        match cmp mid with
        | Ordering.lt => bsGo cmp fuel (mid + 1) right
        | Ordering.gt => bsGo cmp fuel left mid
        | Ordering.eq => Except.ok mid
      else Except.error left

/-- Rust `slice::binary_search_by` on the interval vector. -/
def binarySearchBy (v : List Interval) (f : Interval → Ordering) : Except Nat Nat :=
  bsGo (fun i => f (v.getD i ⟨0, 0⟩)) (v.length + 1) 0 v.length

/-- `RunStore::interleaved_binary_search` (mod.rs lines 19-24):
`binary_search_by_key(&ikey, |interval| interval.value)`, with the miss index
shifted down by one into an `i32`. -/
def RunStore.interleavedBinarySearch (s : RunStore) (ikey : Nat) : Except Int Int :=
  match binarySearchBy s.vec (fun iv => natCompare iv.value ikey) with
  | Except.ok x => Except.ok (x : Int)
  | Except.error y => Except.error ((y : Int) - 1)

/-- `RunStore::find_run` (mod.rs lines 30-35). -/
def RunStore.findRun (s : RunStore) (ikey : Nat) : Except Int Int :=
  match binarySearchBy s.vec (fun iv => iv.compareToIndex ikey) with
  | Except.ok x => Except.ok (x : Int)
  | Except.error y => Except.error ((y : Int) - 1)

/-- Final line of `RunStore::insert` (mod.rs line 82):
`self.vec.insert(usize::try_from(index + 1).unwrap(), Interval::from(pos))`.
`none` models the `unwrap` panic on a negative index and the `Vec::insert`
out-of-bounds panic. -/
def RunStore.insertFinal (s : RunStore) (pos : Nat) (index : Int) : Option (RunStore × Bool) :=
  if 0 ≤ index + 1 then
    if (index + 1).toNat ≤ s.vec.length then
      some (⟨s.vec.insertIdx (index + 1).toNat (Interval.fromKey pos)⟩, true)
    else none
  else none

/-- The tail of `RunStore::insert` (mod.rs lines 73-83): the `index == -1`
fusion attempt with the first run, falling through to the final insertion.
`none` models the `self.vec[0]` panic on an empty vector. -/
def RunStore.insertTail (s : RunStore) (pos : Nat) (index : Int) : Option (RunStore × Bool) :=
  if index = -1 then
    match (Interval.fromKey pos).tryFuse (s.vec.get? 0) with
    | some fused =>
        match s.vec with
        | [] => none
        | _ :: _ => some (⟨s.vec.set 0 fused⟩, true)
    | none => s.insertFinal pos index
  else s.insertFinal pos index

/-- `RunStore::insert` (mod.rs lines 37-84), with every panic point of the
source (vector indexing, arithmetic overflow in a debug build, `unwrap`)
embedded as `none`. The returned `Bool` is the source's return value. -/
def RunStore.insert (s : RunStore) (pos : Nat) : Option (RunStore × Bool) :=
  match s.interleavedBinarySearch pos with
  | Except.ok _ => some (s, false)
  | Except.error index =>
      if 0 ≤ index then
        match s.vec.get? index.toNat with
        | none => none
        | some interval =>
            if optLe (csub pos interval.value) (some interval.length) then some (s, false)
            else
              match cadd interval.length 1 with
              | none => none
              | some len1 =>
                  if csub pos interval.value = some len1 then
                    match interval.tryFuse (s.vec.get? (index.toNat + 1)) with
                    | some fused =>
                        if index.toNat + 1 < s.vec.length then
                          some (⟨(s.vec.eraseIdx (index.toNat + 1)).set index.toNat fused⟩, true)
                        else none
                    | none => some (⟨s.vec.set index.toNat ⟨interval.value, len1⟩⟩, true)
                  else
                    match s.vec.get? (index.toNat + 1) with
                    | some nextInterval =>
                        match cadd pos 1 with
                        | none => none
                        | some pos1 =>
                            if nextInterval.value = pos1 then
                              match cadd nextInterval.length 1 with
                              | none => none
                              | some nlen =>
                                  some (⟨s.vec.set (index.toNat + 1) ⟨pos, nlen⟩⟩, true)
                            else s.insertTail pos index
                    | none => s.insertTail pos index
      else s.insertTail pos index

/-- `ErrorKind` (mod.rs line 94). -/
inductive ErrorKind where
  | monotonicityViolation
deriving Repr, DecidableEq

/-- `Error` (mod.rs line 88). -/
structure StoreError where
  index : Nat
  kind : ErrorKind
deriving Repr, DecidableEq

/-- The validation loop of `TryFrom<Vec<Interval>> for RunStore`
(mod.rs lines 115-123). Note the source binds `prev` once to the FIRST
element and never rebinds it inside the loop, so every later interval is
compared against the first interval's `value`. -/
def checkFrom (prev : Interval) : List Interval → Nat → Option Nat
  | [], _ => none
  | curr :: rest, i =>
      match curr.compareToIndex prev.value with
      | Ordering.gt => checkFrom prev rest (i + 1)
      | _ => some i

/-- `RunStore::try_from` (mod.rs lines 111-126). -/
def RunStore.tryFrom (value : List Interval) : Except StoreError RunStore :=
  match value with
  | [] => Except.ok ⟨value⟩
  | prev :: rest =>
      match checkFrom prev rest 1 with
      | some i => Except.error ⟨i, ErrorKind.monotonicityViolation⟩
      | none => Except.ok ⟨value⟩

-- Set semantics and the store invariants -----------------------------------

/-- Decidability of `List.Chain` by recursion (kernel-reducible, so that
`decide` can evaluate the invariants on concrete stores). -/
def decChainR (R : Interval → Interval → Prop) (dR : DecidableRel R) (a : Interval) :
    (l : List Interval) → Decidable (List.Chain R a l)
  | [] => isTrue List.Chain.nil
  | b :: l =>
      match dR a b with
      | isFalse h => isFalse fun hc => by cases hc with | cons h1 _ => exact h h1
      | isTrue h =>
          match decChainR R dR b l with
          | isTrue h2 => isTrue (List.Chain.cons h h2)
          | isFalse h2 => isFalse fun hc => by cases hc with | cons _ hh => exact h2 hh

instance instDecChainIv (R : Interval → Interval → Prop) [dR : DecidableRel R] :
    (l : List Interval) → Decidable (l.Chain' R)
  | [] => isTrue trivial
  | a :: l => decChainR R dR a l

instance : DecidableEq (Except StoreError RunStore) := fun a b =>
  match a, b with
  | Except.ok x, Except.ok y =>
      match decEq x y with
      | isTrue h => isTrue (by rw [h])
      | isFalse h => isFalse (by intro hh; cases hh; exact h rfl)
  | Except.error x, Except.error y =>
      match decEq x y with
      | isTrue h => isTrue (by rw [h])
      | isFalse h => isFalse (by intro hh; cases hh; exact h rfl)
  | Except.ok _, Except.error _ => isFalse (by intro h; cases h)
  | Except.error _, Except.ok _ => isFalse (by intro h; cases h)

/-- Key `k` lies in the closed range an interval denotes (using the code's
own `get_end`). -/
def Interval.covers (i : Interval) (k : Nat) : Prop := i.value ≤ k ∧ k ≤ i.getEnd

instance (i : Interval) (k : Nat) : Decidable (i.covers k) :=
  inferInstanceAs (Decidable (i.value ≤ k ∧ k ≤ i.getEnd))

/-- Membership of a key in the set a store encodes. -/
def RunStore.memK (s : RunStore) (k : Nat) : Prop := ∃ iv ∈ s.vec, iv.covers k

instance (s : RunStore) (k : Nat) : Decidable (s.memK k) :=
  inferInstanceAs (Decidable (∃ iv ∈ s.vec, iv.covers k))

/-- An interval's bounds stay inside the 16-bit key space (spec section 3:
an interval represents the range `[start, start+length]` of 16-bit keys). -/
def Interval.valid (i : Interval) : Prop := i.value + i.length ≤ 65535

instance (i : Interval) : Decidable i.valid :=
  inferInstanceAs (Decidable (i.value + i.length ≤ 65535))

/-- Invariant A between two consecutive intervals: the later start exceeds
the earlier end by at least 2 (no overlap, no adjacency). -/
def gapTwo (a b : Interval) : Prop := a.value + a.length + 2 ≤ b.value

instance : DecidableRel gapTwo := fun a b =>
  inferInstanceAs (Decidable (a.value + a.length + 2 ≤ b.value))

/-- Invariants A and B of the spec: every interval is a 16-bit range and
consecutive intervals are separated by a gap of at least two, which is
exactly the condition for the sequence to be the unique maximal-run
decomposition of the encoded set (no two intervals overlap, touch, or could
be merged without changing the set). -/
def RunStore.wf (s : RunStore) : Prop :=
  (∀ iv ∈ s.vec, iv.valid) ∧ s.vec.Chain' gapTwo

instance (s : RunStore) : Decidable s.wf :=
  inferInstanceAs (Decidable ((∀ iv ∈ s.vec, iv.valid) ∧ s.vec.Chain' gapTwo))

/-- Consecutive intervals are strictly separated (disjoint, in order), the
part of the invariant that incremental insertion keeps even where it fails
to re-fuse adjacent runs. -/
def sepRel (a b : Interval) : Prop := a.value + a.length < b.value

instance : DecidableRel sepRel := fun a b =>
  inferInstanceAs (Decidable (a.value + a.length < b.value))

/-- Sorted-and-disjoint store. -/
def RunStore.sortedDisjoint (s : RunStore) : Prop :=
  (∀ iv ∈ s.vec, iv.valid) ∧ s.vec.Chain' sepRel

instance (s : RunStore) : Decidable s.sortedDisjoint :=
  inferInstanceAs (Decidable ((∀ iv ∈ s.vec, iv.valid) ∧ s.vec.Chain' sepRel))

-- The visitor (visitor.rs) and the set-algebra sweeps (ops.rs) --------------

/-- Modelled from the spec: `RunStore::is_full` is consumed from the outer
container layer and is not under `src/`; per spec section 6 it is true iff
the store is exactly the single interval covering the whole 16-bit key
space. -/
def RunStore.isFull (s : RunStore) : Bool := s.vec = [⟨0, 65535⟩]

/-- The full store, `[0, 65535]` as a single run. -/
def fullStore : RunStore := ⟨[⟨0, 65535⟩]⟩

/-- The derived lexicographic `Ord` of `Interval` (interval.rs line 6
derives `PartialOrd, Ord` on `{value, length}`). -/
def ivLe (a b : Interval) : Bool :=
  decide (a.value < b.value) || (decide (a.value = b.value) && decide (a.length ≤ b.length))

/-- Modelled from the spec: `crate::bitmap::iter::BivariateOrderedIterator`
is not under `src/`; per spec section 4.4 it merges the two ascending
interval sequences, always yielding the next interval in ascending order
across both inputs. Ties are resolved by the intervals' derived total order
(interval.rs derives `Ord`). -/
def mergeGo : Nat → List Interval → List Interval → List Interval
  | 0, xs, ys => xs ++ ys
  | fuel + 1, xs, ys =>
      match xs, ys with
      | [], ys => ys
      | x :: xs, [] => x :: xs
      | x :: xs, y :: ys =>
          if ivLe x y then x :: mergeGo fuel xs (y :: ys)
          else y :: mergeGo fuel (x :: xs) ys

def mergeIv (a b : List Interval) : List Interval := mergeGo (a.length + b.length) a b

/-- `RunWriter::visit_interval` (visitor.rs lines 38-52), acting on the
writer's accumulated vector; `none` models the `assert!` panic. -/
def visitInterval (store : List Interval) (ival : Interval) : Option (List Interval) :=
  match store.getLast? with
  | some lastIval =>
      if lastIval.value ≤ ival.value then
        let maxEnd := max lastIval.getEnd ival.getEnd
        if ival.value ≤ wadd lastIval.getEnd 1 then
          some (store.dropLast ++ [⟨lastIval.value, wsub maxEnd lastIval.value⟩])
        else some (store ++ [ival])
      else none
  | none => some (store ++ [ival])

/-- `or` (ops.rs lines 7-20) driven into a fresh `RunWriter` and extracted
with `into_inner`: the fast paths call `visit_run_store`, which replaces the
writer's store with a clone of the operand; otherwise every merged interval
is fed to `visit_interval`. -/
def orOp (lhs rhs : RunStore) : Option RunStore :=
  if lhs.isFull then some lhs
  else if rhs.isFull then some rhs
  else
    match (mergeIv lhs.vec rhs.vec).foldlM visitInterval [] with
    | some v => some ⟨v⟩
    | none => none

/-- The `xor_append` closure of `xor` (ops.rs lines 24-65): state is the
pending `prev_interval` and the writer's accumulated vector. -/
def xorStep (st : Option Interval × List Interval) (currInterval : Interval) :
    Option (Option Interval × List Interval) :=
  let acc := st.2
  match st.1 with
  | none => some (some currInterval, acc)
  | some prev =>
      if prev = currInterval then some (none, acc)
      else if wadd prev.getEnd 1 < currInterval.value then
        match visitInterval acc prev with
        | some acc2 => some (some currInterval, acc2)
        | none => none
      else
        let prevStart := prev.getPair.1
        let prevEnd := prev.getPair.2
        let currStart := currInterval.getPair.1
        let currEnd := currInterval.getPair.2
        if prevStart = currStart then
          let mn := (minmax prevEnd currEnd).1
          let mx := (minmax prevEnd currEnd).2
          some (some (Interval.fromPair (wadd mn 1, mx)), acc)
        else if prevEnd = currEnd then
          let mn := (minmax prevStart currStart).1
          let mx := (minmax prevStart currStart).2
          some (some (Interval.fromPair (mn, wsub mx 1)), acc)
        else
          let mnE := (minmax prevEnd currEnd).1
          let mxE := (minmax prevEnd currEnd).2
          let leftIv := Interval.fromPair (prevStart, wsub currStart 1)
          let rightIv := Interval.fromPair (wadd mnE 1, mxE)
          match visitInterval acc leftIv with
          | some acc2 => some (some rightIv, acc2)
          | none => none

/-- `xor` (ops.rs lines 22-71) driven into a fresh `RunWriter` and extracted
with `into_inner`; after the sweep any remaining pending interval is
flushed. -/
def xorOp (lhs rhs : RunStore) : Option RunStore :=
  match (mergeIv lhs.vec rhs.vec).foldlM xorStep (none, []) with
  | some (some p, acc) =>
      match visitInterval acc p with
      | some acc2 => some ⟨acc2⟩
      | none => none
  | some (none, acc) => some ⟨acc⟩
  | none => none

/-- The `and_append` closure of `and` (ops.rs lines 85-138). -/
def andStep (st : Option Interval × List Interval) (currInterval : Interval) :
    Option (Option Interval × List Interval) :=
  let acc := st.2
  match st.1 with
  | none => some (some currInterval, acc)
  | some prev =>
      if prev = currInterval then
        match visitInterval acc currInterval with
        | some acc2 => some (none, acc2)
        | none => none
      else if wadd prev.getEnd 1 < currInterval.value then some (some currInterval, acc)
      else
        let prevStart := prev.getPair.1
        let prevEnd := prev.getPair.2
        let currStart := currInterval.getPair.1
        let currEnd := currInterval.getPair.2
        if prevStart = currStart then
          let mn := (minmax prevEnd currEnd).1
          let mx := (minmax prevEnd currEnd).2
          match visitInterval acc (Interval.fromPair (prevStart, mn)) with
          | some acc2 => some (some (Interval.fromPair (wadd mn 1, mx)), acc2)
          | none => none
        else if currStart < prevStart then
          let mn := (minmax prevEnd currEnd).1
          let mx := (minmax prevEnd currEnd).2
          match visitInterval acc (Interval.fromPair (currStart, mn)) with
          | some acc2 => some (some (Interval.fromPair (wadd mn 1, mx)), acc2)
          | none => none
        else if prevStart ≤ currStart then
          if prevEnd < currStart then some (some currInterval, acc)
          else if prevEnd ≤ currEnd then
            match visitInterval acc (Interval.fromPair (currStart, prevEnd)) with
            | some acc2 => some (some (Interval.fromPair (wadd prevEnd 1, currEnd)), acc2)
            | none => none
          else
            match visitInterval acc (Interval.fromPair (currStart, currEnd)) with
            | some acc2 => some (some (Interval.fromPair (wadd currEnd 1, prevEnd)), acc2)
            | none => none
        else some (some currInterval, acc)

/-- `and` (ops.rs lines 73-141) driven into a fresh `RunWriter` and extracted
with `into_inner`: fast paths visit the other operand wholesale; the sweep's
final pending interval is discarded. -/
def andOp (lhs rhs : RunStore) : Option RunStore :=
  if lhs.isFull then some rhs
  else if rhs.isFull then some lhs
  else
    match (mergeIv lhs.vec rhs.vec).foldlM andStep (none, []) with
    | some (_, acc) => some ⟨acc⟩
    | none => none

/-- The ordering of the merged sweep as a proposition. -/
def ivLeP (a b : Interval) : Prop := ivLe a b = true

instance : IsAntisymm Interval ivLeP :=
  ⟨fun a b h1 h2 => by
    cases a with
    | mk av al =>
        cases b with
        | mk bv bl =>
            unfold ivLeP ivLe at h1 h2
            simp only [Bool.or_eq_true, Bool.and_eq_true, decide_eq_true_eq] at h1 h2
            simp only [Interval.mk.injEq]
            omega⟩

instance : IsTrans Interval gapTwo :=
  ⟨fun a b c hab hbc => by unfold gapTwo at hab hbc ⊢; omega⟩

instance : IsTrans Interval sepRel :=
  ⟨fun a b c hab hbc => by unfold sepRel at hab hbc ⊢; omega⟩

-- Claim theorems ------------------------------------------------------------

/-- C1: the claim that every `insert` preserves Invariants A and B fails on
the code. The store `[(5,10)]` is well formed, but `insert(4)` takes the
`index == -1` path, whose only repair is the gap-2 fusion of `try_fuse`; the
adjacent case (`first.start == key + 1`) is not handled there, so a singleton
`(4,4)` is inserted next to `(5,10)`: the result has a gap of 1 between
consecutive runs and is not the maximal-run decomposition of its set. -/
theorem claim_c1_insert_breaks_invariants :
    RunStore.insert ⟨[⟨5, 5⟩]⟩ 4 = some (⟨[⟨4, 0⟩, ⟨5, 5⟩]⟩, true) ∧
    RunStore.wf ⟨[⟨5, 5⟩]⟩ ∧
    ¬ RunStore.wf ⟨[⟨4, 0⟩, ⟨5, 5⟩]⟩ := by decide

/-- C2 counterexample: the interval sequence `[(5,10),(7,12)]` has a
consecutive pair that overlaps (the later start 7 is not greater than the
earlier end 10, let alone by 2), yet `try_from` accepts it, contradicting
the claim that construction fails on every overlapping or adjacent pair. -/
theorem claim_c2_counterexample :
    RunStore.tryFrom [⟨5, 5⟩, ⟨7, 5⟩] = Except.ok ⟨[⟨5, 5⟩, ⟨7, 5⟩]⟩ ∧
    (⟨7, 5⟩ : Interval).value ≤ (⟨5, 5⟩ : Interval).getEnd := by decide

/-- C3: the claim that `or` always yields a well-formed store fails at the
top of the key space. Both operands are well formed and neither is full, but
after the sweep visits `(10,65535)` the writer's guard computes
`last.end + 1` in 16 bits, which wraps to 0 (panicking in a debug build), so
`(20,30)` is pushed as a second, overlapping run: the result violates
Invariant A. -/
theorem claim_c3_or_not_wellformed :
    orOp ⟨[⟨10, 65525⟩]⟩ ⟨[⟨20, 10⟩]⟩ = some ⟨[⟨10, 65525⟩, ⟨20, 10⟩]⟩ ∧
    RunStore.wf ⟨[⟨10, 65525⟩]⟩ ∧ RunStore.wf ⟨[⟨20, 10⟩]⟩ ∧
    RunStore.isFull ⟨[⟨10, 65525⟩]⟩ = false ∧
    ¬ RunStore.wf ⟨[⟨10, 65525⟩, ⟨20, 10⟩]⟩ := by decide

/-- C4: the claim that `and` yields exactly the intersection fails at the
top of the key space. With the well-formed operands `[(10,65535)]` and
`[(20,30)]` the carry's `end + 1` wraps to 0 (panicking in a debug build),
the keys 20..30 that lie in both operands are classified as non-overlapping,
and the result is the empty store although 20 is in both operands. -/
theorem claim_c4_and_drops_intersection :
    andOp ⟨[⟨10, 65525⟩]⟩ ⟨[⟨20, 10⟩]⟩ = some ⟨[]⟩ ∧
    RunStore.wf ⟨[⟨10, 65525⟩]⟩ ∧ RunStore.wf ⟨[⟨20, 10⟩]⟩ ∧
    RunStore.memK ⟨[⟨10, 65525⟩]⟩ 20 ∧ RunStore.memK ⟨[⟨20, 10⟩]⟩ 20 ∧
    ¬ RunStore.memK ⟨[]⟩ 20 := by decide

/-- C5: the claim that `xor` yields exactly the symmetric difference fails
at the top of the key space. With the well-formed operands `[(10,65535)]`
and `[(25,40)]`, `prev.end + 1` wraps to 0 (panicking in a debug build), the
overlapping pair is treated as disjoint, and the key 30 — present in BOTH
operands, hence excluded from the symmetric difference — ends up in the
result. -/
theorem claim_c5_xor_keeps_shared_keys :
    xorOp ⟨[⟨10, 65525⟩]⟩ ⟨[⟨25, 15⟩]⟩ = some ⟨[⟨10, 65525⟩, ⟨25, 15⟩]⟩ ∧
    RunStore.wf ⟨[⟨10, 65525⟩]⟩ ∧ RunStore.wf ⟨[⟨25, 15⟩]⟩ ∧
    RunStore.memK ⟨[⟨10, 65525⟩]⟩ 30 ∧ RunStore.memK ⟨[⟨25, 15⟩]⟩ 30 ∧
    RunStore.memK ⟨[⟨10, 65525⟩, ⟨25, 15⟩]⟩ 30 := by decide

/-- C6: the claim that all interval-bound arithmetic is guarded against
16-bit overflow fails: for a well-formed, non-full operand whose last
interval ends at 65535, the writer's `last.end + 1` computation wraps to 0
(in a debug build it panics), and `or` then produces a malformed store
instead of the correct union. -/
theorem claim_c6_overflow_unguarded :
    wadd (Interval.getEnd ⟨100, 65435⟩) 1 = 0 ∧
    orOp ⟨[⟨100, 65435⟩]⟩ ⟨[⟨200, 100⟩]⟩ = some ⟨[⟨100, 65435⟩, ⟨200, 100⟩]⟩ ∧
    RunStore.wf ⟨[⟨100, 65435⟩]⟩ ∧ RunStore.wf ⟨[⟨200, 100⟩]⟩ ∧
    RunStore.isFull ⟨[⟨100, 65435⟩]⟩ = false ∧
    ¬ RunStore.wf ⟨[⟨100, 65435⟩, ⟨200, 100⟩]⟩ := by decide

theorem isFull_eq (X : RunStore) (h : X.isFull = true) : X = fullStore := by
  cases X with
  | mk v =>
      have : v = [⟨0, 65535⟩] := by simpa [RunStore.isFull] using h
      simp [fullStore, this]

/-- C9: intersection with the full store returns the other operand
unchanged, through the `visit_run_store` wholesale shortcut. -/
theorem claim_c9_and_full (X : RunStore) (h : X.wf) :
    andOp fullStore X = some X ∧ andOp X fullStore = some X := by
  have hfull : fullStore.isFull = true := rfl
  constructor
  · unfold andOp
    rw [if_pos hfull]
  · by_cases hX : X.isFull = true
    · rw [isFull_eq X hX]
      unfold andOp
      rw [if_pos hfull]
    · unfold andOp
      rw [if_neg hX, if_pos hfull]

/-- Witness for C9 at a concrete well-formed store. -/
theorem claim_c9_and_full_witness :
    andOp fullStore ⟨[⟨2, 2⟩, ⟨9, 1⟩]⟩ = some ⟨[⟨2, 2⟩, ⟨9, 1⟩]⟩ ∧
    andOp ⟨[⟨2, 2⟩, ⟨9, 1⟩]⟩ fullStore = some ⟨[⟨2, 2⟩, ⟨9, 1⟩]⟩ :=
  claim_c9_and_full ⟨[⟨2, 2⟩, ⟨9, 1⟩]⟩ (by decide)

-- C2: characterization of try_from ------------------------------------------

theorem compareToIndex_gt_iff (i : Interval) (key : Nat) :
    i.compareToIndex key = Ordering.gt ↔ key < i.value := by
  unfold Interval.compareToIndex
  by_cases h : key < i.value
  · simp [h]
  · by_cases h2 : key ≤ i.getEnd <;> simp [h, h2]

theorem checkFrom_none_iff (prev : Interval) :
    ∀ rest i, checkFrom prev rest i = none ↔ ∀ iv ∈ rest, prev.value < iv.value := by
  intro rest
  induction rest with
  | nil => intro i; simp [checkFrom]
  | cons c rest ih =>
      intro i
      unfold checkFrom
      by_cases hc : c.compareToIndex prev.value = Ordering.gt
      · rw [hc]
        simp only [List.mem_cons]
        rw [ih (i + 1)]
        constructor
        · intro hall iv hiv
          cases hiv with
          | inl h => exact h ▸ (compareToIndex_gt_iff c prev.value).mp hc
          | inr h => exact hall iv h
        · intro hall iv hiv; exact hall iv (Or.inr hiv)
      · have : prev.value < c.value → False := fun hlt =>
          hc ((compareToIndex_gt_iff c prev.value).mpr hlt)
        cases hcc : c.compareToIndex prev.value with
        | gt => exact absurd hcc hc
        | lt =>
            simp only [List.mem_cons]
            constructor
            · intro h; cases h
            · intro hall
              exact absurd (hall c (Or.inl rfl)) this
        | eq =>
            simp only [List.mem_cons]
            constructor
            · intro h; cases h
            · intro hall
              exact absurd (hall c (Or.inl rfl)) this

theorem checkFrom_some_spec (prev : Interval) :
    ∀ rest i j, checkFrom prev rest i = some j →
      i ≤ j ∧
      (∃ c, rest.get? (j - i) = some c ∧ ¬ prev.value < c.value) ∧
      (∀ m c2, m < j - i → rest.get? m = some c2 → prev.value < c2.value) := by
  intro rest
  induction rest with
  | nil => intro i j h; simp [checkFrom] at h
  | cons c rest ih =>
      intro i j h
      have hred : checkFrom prev (c :: rest) i =
          (match c.compareToIndex prev.value with
           | Ordering.gt => checkFrom prev rest (i + 1)
           | _ => some i) := rfl
      rw [hred] at h
      cases hcc : c.compareToIndex prev.value with
      | gt =>
          rw [hcc] at h
          obtain ⟨hij, ⟨d, hd, hdv⟩, hmin⟩ := ih (i + 1) j h
          have hij2 : i ≤ j := le_trans (Nat.le_succ i) hij
          refine ⟨hij2, ⟨d, ?_, hdv⟩, ?_⟩
          · have : j - i = (j - (i + 1)) + 1 := by omega
            rw [this]
            simpa using hd
          · intro m c2 hm hc2
            cases m with
            | zero =>
                have hcc2 : c = c2 := by simpa using hc2
                exact hcc2 ▸ (compareToIndex_gt_iff c prev.value).mp hcc
            | succ m =>
                have hm2 : m < j - (i + 1) := by omega
                exact hmin m c2 hm2 (by simpa using hc2)
      | lt =>
          rw [hcc] at h
          injection h with hj
          subst hj
          refine ⟨le_refl i, ⟨c, by simp, ?_⟩, ?_⟩
          · intro hlt
            have := (compareToIndex_gt_iff c prev.value).mpr hlt
            rw [hcc] at this; cases this
          · intro m c2 hm hc2; omega
      | eq =>
          rw [hcc] at h
          injection h with hj
          subst hj
          refine ⟨le_refl i, ⟨c, by simp, ?_⟩, ?_⟩
          · intro hlt
            have := (compareToIndex_gt_iff c prev.value).mpr hlt
            rw [hcc] at this; cases this
          · intro m c2 hm hc2; omega

theorem chainGapTwo_head_lt (prev : Interval) :
    ∀ rest, List.Chain' gapTwo (prev :: rest) → ∀ iv ∈ rest, prev.value < iv.value := by
  intro rest
  induction rest generalizing prev with
  | nil => intro _ iv hiv; cases hiv
  | cons c rest ih =>
      intro hch iv hiv
      rw [List.chain'_cons] at hch
      obtain ⟨hg, hch2⟩ := hch
      have hpc : prev.value < c.value := by
        unfold gapTwo at hg; omega
      cases hiv with
      | head => exact hpc
      | tail _ h => exact lt_trans hpc (ih c hch2 iv h)

/-- C2 as amended: the validating constructor compares every later interval
against the FIRST interval's start only (`prev` is bound once in the source
loop and never rebound). Construction succeeds iff every interval after the
first has `start` strictly greater than the first interval's `start` (so in
particular for every strictly increasing, gap-at-least-2 sequence, and for
the empty sequence); otherwise it fails with a `MonotonicityViolation`
carrying the index of the first interval whose start does not exceed the
first interval's start. Overlap or adjacency with increasing starts is NOT
rejected. -/
theorem claim_c2_amended :
    RunStore.tryFrom [] = Except.ok ⟨[]⟩ ∧
    (∀ prev rest,
      (RunStore.tryFrom (prev :: rest) = Except.ok ⟨prev :: rest⟩ ↔
        ∀ iv ∈ rest, prev.value < iv.value) ∧
      (∀ e, RunStore.tryFrom (prev :: rest) = Except.error e →
        e.kind = ErrorKind.monotonicityViolation ∧ 1 ≤ e.index ∧
        (∃ c, rest.get? (e.index - 1) = some c ∧ ¬ prev.value < c.value) ∧
        (∀ m c2, m < e.index - 1 → rest.get? m = some c2 → prev.value < c2.value))) ∧
    (∀ v, RunStore.wf ⟨v⟩ → RunStore.tryFrom v = Except.ok ⟨v⟩) := by
  have hred : ∀ prev rest, RunStore.tryFrom (prev :: rest) =
      (match checkFrom prev rest 1 with
       | some i => Except.error ⟨i, ErrorKind.monotonicityViolation⟩
       | none => Except.ok ⟨prev :: rest⟩) := fun _ _ => rfl
  refine ⟨rfl, fun prev rest => ⟨?_, ?_⟩, ?_⟩
  · rw [hred]
    cases hcf : checkFrom prev rest 1 with
    | none =>
        exact ⟨fun _ => (checkFrom_none_iff prev rest 1).mp hcf, fun _ => rfl⟩
    | some j =>
        constructor
        · intro h; cases h
        · intro hall
          rw [(checkFrom_none_iff prev rest 1).mpr hall] at hcf
          cases hcf
  · intro e he
    rw [hred] at he
    cases hcf : checkFrom prev rest 1 with
    | none => rw [hcf] at he; cases he
    | some j =>
        rw [hcf] at he
        cases he
        obtain ⟨h1j, hcex, hmin⟩ := checkFrom_some_spec prev rest 1 j hcf
        exact ⟨rfl, h1j, hcex, hmin⟩
  · intro v hwf
    cases v with
    | nil => rfl
    | cons prev rest =>
        rw [hred, (checkFrom_none_iff prev rest 1).mpr
          (chainGapTwo_head_lt prev rest hwf.2)]

/-- Witness for C2 as amended, applied at concrete inputs. -/
theorem claim_c2_amended_witness :
    RunStore.tryFrom [⟨3, 2⟩, ⟨9, 1⟩] = Except.ok ⟨[⟨3, 2⟩, ⟨9, 1⟩]⟩ :=
  (claim_c2_amended.2.1 ⟨3, 2⟩ [⟨9, 1⟩]).1.mpr (by decide)

-- C8: commutativity of the sweeps -------------------------------------------

theorem ivLe_total (a b : Interval) : ivLe a b = true ∨ ivLe b a = true := by
  unfold ivLe
  simp only [Bool.or_eq_true, Bool.and_eq_true, decide_eq_true_eq]
  omega

theorem ivLe_trans {a b c : Interval} (h1 : ivLe a b = true) (h2 : ivLe b c = true) :
    ivLe a c = true := by
  unfold ivLe at h1 h2 ⊢
  simp only [Bool.or_eq_true, Bool.and_eq_true, decide_eq_true_eq] at h1 h2 ⊢
  omega

theorem mergeGo_nil_left (g : Nat) (ys : List Interval) : mergeGo g [] ys = ys := by
  cases g with
  | zero => simp [mergeGo]
  | succ g => rfl

theorem mergeGo_nil_right (g : Nat) (xs : List Interval) : mergeGo g xs [] = xs := by
  cases g with
  | zero => simp [mergeGo]
  | succ g => cases xs <;> rfl

theorem mergeGo_fuel_eq : ∀ f xs ys g, xs.length + ys.length ≤ f →
    xs.length + ys.length ≤ g → mergeGo f xs ys = mergeGo g xs ys := by
  intro f
  induction f with
  | zero =>
      intro xs ys g h1 _
      have hx : xs = [] := List.eq_nil_of_length_eq_zero (by omega)
      have hy : ys = [] := List.eq_nil_of_length_eq_zero (by omega)
      subst hx; subst hy
      rw [mergeGo_nil_left, mergeGo_nil_left]
  | succ f ih =>
      intro xs ys g h1 h2
      cases xs with
      | nil => rw [mergeGo_nil_left, mergeGo_nil_left]
      | cons x xs =>
          cases ys with
          | nil => rw [mergeGo_nil_right, mergeGo_nil_right]
          | cons y ys =>
              cases g with
              | zero => simp at h2
              | succ g =>
                  show (if ivLe x y then x :: mergeGo f xs (y :: ys)
                        else y :: mergeGo f (x :: xs) ys) =
                       (if ivLe x y then x :: mergeGo g xs (y :: ys)
                        else y :: mergeGo g (x :: xs) ys)
                  have hl1 : xs.length + (y :: ys).length ≤ f := by
                    simp at h1 ⊢; omega
                  have hl2 : xs.length + (y :: ys).length ≤ g := by
                    simp at h2 ⊢; omega
                  have hr1 : (x :: xs).length + ys.length ≤ f := by
                    simp at h1 ⊢; omega
                  have hr2 : (x :: xs).length + ys.length ≤ g := by
                    simp at h2 ⊢; omega
                  by_cases hxy : ivLe x y = true
                  · rw [if_pos hxy, if_pos hxy, ih xs (y :: ys) g hl1 hl2]
                  · rw [if_neg hxy, if_neg hxy, ih (x :: xs) ys g hr1 hr2]

theorem mergeIv_nil_left (ys : List Interval) : mergeIv [] ys = ys :=
  mergeGo_nil_left _ ys

theorem mergeIv_nil_right (xs : List Interval) : mergeIv xs [] = xs :=
  mergeGo_nil_right _ xs

theorem mergeIv_cons_cons (x y : Interval) (xs ys : List Interval) :
    mergeIv (x :: xs) (y :: ys) =
      if ivLe x y then x :: mergeIv xs (y :: ys) else y :: mergeIv (x :: xs) ys := by
  have hred : mergeIv (x :: xs) (y :: ys) =
      (if ivLe x y then x :: mergeGo ((x :: xs).length + ys.length) xs (y :: ys)
       else y :: mergeGo ((x :: xs).length + ys.length) (x :: xs) ys) := rfl
  rw [hred]
  by_cases hxy : ivLe x y = true
  · rw [if_pos hxy, if_pos hxy,
      mergeGo_fuel_eq ((x :: xs).length + ys.length) xs (y :: ys)
        (xs.length + (y :: ys).length) (by simp; omega) (le_refl _)]
    rfl
  · rw [if_neg hxy, if_neg hxy,
      mergeGo_fuel_eq ((x :: xs).length + ys.length) (x :: xs) ys
        ((x :: xs).length + ys.length) (le_refl _) (le_refl _)]
    rfl

theorem mergeIv_perm : ∀ xs ys : List Interval, (mergeIv xs ys).Perm (xs ++ ys) := by
  intro xs
  induction xs with
  | nil => intro ys; rw [mergeIv_nil_left]; simp
  | cons x xs ihx =>
      intro ys
      induction ys with
      | nil => rw [mergeIv_nil_right]; simp
      | cons y ys ihy =>
          rw [mergeIv_cons_cons]
          by_cases h : ivLe x y = true
          · rw [if_pos h]
            exact List.Perm.cons x (ihx (y :: ys))
          · rw [if_neg h]
            exact (List.Perm.cons y ihy).trans List.perm_middle.symm

theorem mergeIv_mem (z : Interval) (xs ys : List Interval) :
    z ∈ mergeIv xs ys ↔ z ∈ xs ∨ z ∈ ys := by
  rw [(mergeIv_perm xs ys).mem_iff, List.mem_append]

theorem mergeIv_pairwise : ∀ n xs ys, xs.length + ys.length ≤ n →
    xs.Pairwise ivLeP → ys.Pairwise ivLeP → (mergeIv xs ys).Pairwise ivLeP := by
  intro n
  induction n with
  | zero =>
      intro xs ys h1 _ _
      have hx : xs = [] := List.eq_nil_of_length_eq_zero (by omega)
      subst hx
      rw [mergeIv_nil_left]
      assumption
  | succ n ih =>
      intro xs ys hlen hx hy
      cases xs with
      | nil => rw [mergeIv_nil_left]; exact hy
      | cons x xs =>
          cases ys with
          | nil => rw [mergeIv_nil_right]; exact hx
          | cons y ys =>
              rw [mergeIv_cons_cons]
              rw [List.pairwise_cons] at hx hy
              by_cases h : ivLe x y = true
              · rw [if_pos h]
                rw [List.pairwise_cons]
                constructor
                · intro z hz
                  rw [mergeIv_mem] at hz
                  cases hz with
                  | inl hz => exact hx.1 z hz
                  | inr hz =>
                      cases hz with
                      | head => exact h
                      | tail _ hz2 => exact ivLe_trans h (hy.1 z hz2)
                · exact ih xs (y :: ys) (by simp at hlen ⊢; omega) hx.2
                    (List.pairwise_cons.mpr hy)
              · rw [if_neg h]
                have hyx : ivLe y x = true := by
                  cases ivLe_total x y with
                  | inl h2 => exact absurd h2 h
                  | inr h2 => exact h2
                rw [List.pairwise_cons]
                constructor
                · intro z hz
                  rw [mergeIv_mem] at hz
                  cases hz with
                  | inl hz =>
                      cases hz with
                      | head => exact hyx
                      | tail _ hz2 => exact ivLe_trans hyx (hx.1 z hz2)
                  | inr hz => exact hy.1 z hz
                · exact ih (x :: xs) ys (by simp at hlen ⊢; omega)
                    (List.pairwise_cons.mpr hx) hy.2

theorem mergeIv_comm (xs ys : List Interval)
    (hx : xs.Pairwise ivLeP) (hy : ys.Pairwise ivLeP) :
    mergeIv xs ys = mergeIv ys xs := by
  refine List.eq_of_perm_of_sorted (r := ivLeP) ?_ ?_ ?_
  · exact (mergeIv_perm xs ys).trans
      (List.perm_append_comm.trans (mergeIv_perm ys xs).symm)
  · exact mergeIv_pairwise (xs.length + ys.length) xs ys (le_refl _) hx hy
  · exact mergeIv_pairwise (ys.length + xs.length) ys xs (le_refl _) hy hx

theorem wf_pairwise_ivLe (s : RunStore) (h : s.wf) : s.vec.Pairwise ivLeP := by
  have hp : s.vec.Pairwise gapTwo := List.chain'_iff_pairwise.mp h.2
  refine hp.imp ?_
  intro a b hab
  unfold gapTwo at hab
  unfold ivLeP ivLe
  simp only [Bool.or_eq_true, Bool.and_eq_true, decide_eq_true_eq]
  omega

/-- C8: `or`, `xor` and `and` are commutative on well-formed stores: the
merged sweep yields the same interval stream either way (ties between equal
starts are resolved by the intervals' total order), the fast paths are
symmetric, and the rest of each algorithm is a function of the stream. -/
theorem claim_c8_commutative (A B : RunStore) (hA : A.wf) (hB : B.wf) :
    orOp A B = orOp B A ∧ xorOp A B = xorOp B A ∧ andOp A B = andOp B A := by
  have hm : mergeIv A.vec B.vec = mergeIv B.vec A.vec :=
    mergeIv_comm _ _ (wf_pairwise_ivLe A hA) (wf_pairwise_ivLe B hB)
  refine ⟨?_, ?_, ?_⟩
  · unfold orOp
    by_cases hA2 : A.isFull = true <;> by_cases hB2 : B.isFull = true
    · rw [isFull_eq A hA2, isFull_eq B hB2]
    · rw [if_pos hA2, if_neg hB2, if_pos hA2]
    · rw [if_neg hA2, if_pos hB2, if_pos hB2]
    · rw [if_neg hA2, if_neg hB2, if_neg hB2, if_neg hA2, hm]
  · unfold xorOp
    rw [hm]
  · unfold andOp
    by_cases hA2 : A.isFull = true <;> by_cases hB2 : B.isFull = true
    · rw [isFull_eq A hA2, isFull_eq B hB2]
    · rw [if_pos hA2, if_neg hB2, if_pos hA2]
    · rw [if_neg hA2, if_pos hB2, if_pos hB2]
    · rw [if_neg hA2, if_neg hB2, if_neg hB2, if_neg hA2, hm]

-- Correctness of the embedded binary search ---------------------------------

theorem bsGo_spec (cmp : Nat → Ordering) (n : Nat)
    (M1 : ∀ i j, i < j → j < n → cmp i = Ordering.gt → cmp j = Ordering.gt)
    (M2 : ∀ i j, i < j → j < n → cmp j = Ordering.lt → cmp i = Ordering.lt) :
    ∀ fuel left right, right ≤ n → left ≤ right → right - left < fuel →
      (∀ i, i < left → cmp i = Ordering.lt) →
      (∀ i, right ≤ i → i < n → cmp i = Ordering.gt) →
      (match bsGo cmp fuel left right with
       | Except.ok x => x < n ∧ cmp x = Ordering.eq
       | Except.error y => y ≤ n ∧ (∀ i, i < y → cmp i = Ordering.lt) ∧
           (∀ i, y ≤ i → i < n → cmp i = Ordering.gt)) := by
  intro fuel
  induction fuel with
  | zero => intro left right _ _ h3 _ _; omega
  | succ fuel ih =>
      intro left right hrn hlr hfuel hL hR
      by_cases hlt : left < right
      · have hred : bsGo cmp (fuel + 1) left right =
            (match cmp (left + (right - left) / 2) with
             | Ordering.lt => bsGo cmp fuel (left + (right - left) / 2 + 1) right
             | Ordering.gt => bsGo cmp fuel left (left + (right - left) / 2)
             | Ordering.eq => Except.ok (left + (right - left) / 2)) := by
          show (if left < right then
                  (match cmp (left + (right - left) / 2) with
                   | Ordering.lt => bsGo cmp fuel (left + (right - left) / 2 + 1) right
                   | Ordering.gt => bsGo cmp fuel left (left + (right - left) / 2)
                   | Ordering.eq => Except.ok (left + (right - left) / 2))
                else Except.error left) = _
          rw [if_pos hlt]
        rw [hred]
        have hmlt : left + (right - left) / 2 < right := by omega
        have hmge : left ≤ left + (right - left) / 2 := by omega
        cases hc : cmp (left + (right - left) / 2) with
        | lt =>
            have hL2 : ∀ i, i < left + (right - left) / 2 + 1 → cmp i = Ordering.lt := by
              intro i hi
              rcases Nat.lt_or_ge i left with h | h
              · exact hL i h
              · rcases Nat.lt_trichotomy i (left + (right - left) / 2) with h2 | h2 | h2
                · exact M2 i (left + (right - left) / 2) h2 (by omega) hc
                · exact h2 ▸ hc
                · omega
            exact ih (left + (right - left) / 2 + 1) right hrn (by omega) (by omega) hL2 hR
        | gt =>
            have hR2 : ∀ i, left + (right - left) / 2 ≤ i → i < n → cmp i = Ordering.gt := by
              intro i hge hin
              rcases Nat.lt_or_ge i right with h | h
              · rcases Nat.eq_or_lt_of_le hge with h2 | h2
                · exact h2 ▸ hc
                · exact M1 (left + (right - left) / 2) i h2 hin hc
              · exact hR i h hin
            exact ih left (left + (right - left) / 2) (by omega) hmge (by omega) hL hR2
        | eq => exact ⟨by omega, hc⟩
      · have hred : bsGo cmp (fuel + 1) left right = Except.error left := by
          show (if left < right then
                  (match cmp (left + (right - left) / 2) with
                   | Ordering.lt => bsGo cmp fuel (left + (right - left) / 2 + 1) right
                   | Ordering.gt => bsGo cmp fuel left (left + (right - left) / 2)
                   | Ordering.eq => Except.ok (left + (right - left) / 2))
                else Except.error left) = _
          rw [if_neg hlt]
        rw [hred]
        have hleq : left = right := by omega
        refine ⟨by omega, hL, ?_⟩
        intro i hge hin
        exact hR i (by omega) hin

theorem binarySearchBy_spec (v : List Interval) (f : Interval → Ordering)
    (M1 : ∀ i j, i < j → j < v.length →
      f (v.getD i ⟨0, 0⟩) = Ordering.gt → f (v.getD j ⟨0, 0⟩) = Ordering.gt)
    (M2 : ∀ i j, i < j → j < v.length →
      f (v.getD j ⟨0, 0⟩) = Ordering.lt → f (v.getD i ⟨0, 0⟩) = Ordering.lt) :
    (match binarySearchBy v f with
     | Except.ok x => x < v.length ∧ f (v.getD x ⟨0, 0⟩) = Ordering.eq
     | Except.error y => y ≤ v.length ∧
         (∀ i, i < y → f (v.getD i ⟨0, 0⟩) = Ordering.lt) ∧
         (∀ i, y ≤ i → i < v.length → f (v.getD i ⟨0, 0⟩) = Ordering.gt)) :=
  bsGo_spec (fun i => f (v.getD i ⟨0, 0⟩)) v.length M1 M2 (v.length + 1) 0 v.length
    (le_refl _) (Nat.zero_le _) (by omega)
    (fun i h => absurd h (Nat.not_lt_zero i))
    (fun i h1 h2 => absurd h2 (by omega))

theorem getD_of_get? {v : List Interval} {i : Nat} {a : Interval}
    (h : v.get? i = some a) : v.getD i ⟨0, 0⟩ = a := by
  induction v generalizing i with
  | nil => cases h
  | cons x xs ih =>
      cases i with
      | zero =>
          have : x = a := by simpa using h
          simpa [List.getD] using this
      | succ i =>
          have h2 : xs.get? i = some a := by simpa using h
          simpa [List.getD] using ih h2

theorem get?_len {v : List Interval} {i : Nat} {a : Interval}
    (h : v.get? i = some a) : i < v.length := (List.get?_eq_some.mp h).1

theorem get?_ex {v : List Interval} {i : Nat} (h : i < v.length) :
    ∃ a, v.get? i = some a := ⟨v.get ⟨i, h⟩, List.get?_eq_get h⟩

theorem natCompare_lt_iff (a b : Nat) : natCompare a b = Ordering.lt ↔ a < b := by
  unfold natCompare
  split_ifs with h h2 <;> simp_all <;> omega

theorem natCompare_gt_iff (a b : Nat) : natCompare a b = Ordering.gt ↔ b < a := by
  unfold natCompare
  split_ifs with h h2 <;> simp_all <;> omega

theorem natCompare_eq_iff (a b : Nat) : natCompare a b = Ordering.eq ↔ a = b := by
  unfold natCompare
  split_ifs with h h2 <;> simp_all <;> omega

theorem compareToIndex_eq_iff (i : Interval) (key : Nat) :
    i.compareToIndex key = Ordering.eq ↔ i.value ≤ key ∧ key ≤ i.getEnd := by
  unfold Interval.compareToIndex
  split_ifs with h h2 <;> simp_all <;> omega

theorem compareToIndex_lt_iff (i : Interval) (key : Nat) :
    i.compareToIndex key = Ordering.lt ↔ i.value ≤ key ∧ i.getEnd < key := by
  unfold Interval.compareToIndex
  split_ifs with h h2 <;> simp_all <;> omega

theorem pairwise_get? {R : Interval → Interval → Prop} {l : List Interval}
    (hp : l.Pairwise R) {i j : Nat} {a b : Interval} (hij : i < j)
    (ha : l.get? i = some a) (hb : l.get? j = some b) : R a b := by
  have hi : i < l.length := get?_len ha
  have hj : j < l.length := get?_len hb
  have h2 := List.pairwise_iff_get.mp hp ⟨i, hi⟩ ⟨j, hj⟩ hij
  rw [List.get?_eq_get hi] at ha
  rw [List.get?_eq_get hj] at hb
  cases ha
  cases hb
  exact h2

theorem getEnd_eq_of_valid {i : Interval} (h : i.valid) :
    i.getEnd = i.value + i.length := by
  unfold Interval.getEnd wadd
  unfold Interval.valid at h
  omega

theorem wf_sortedDisjoint {s : RunStore} (h : s.wf) : s.sortedDisjoint := by
  refine ⟨h.1, ?_⟩
  have h2 := h.2
  exact List.Chain'.imp (fun a b hab => by unfold gapTwo at hab; unfold sepRel; omega) h2

theorem sd_pairwise {s : RunStore} (h : s.sortedDisjoint) : s.vec.Pairwise sepRel :=
  List.chain'_iff_pairwise.mp h.2

/-- Characterization of `interleaved_binary_search` on a sorted-disjoint
store: a hit returns the index of the interval whose start is the key; a
miss returns one less than the count of intervals whose start is below the
key, with everything at or below that index starting below the key and
everything above it starting above the key. -/
theorem interleaved_spec (s : RunStore) (k : Nat) (hsd : s.sortedDisjoint) :
    (match s.interleavedBinarySearch k with
     | Except.ok x => ∃ x0 : Nat, x = (x0 : Int) ∧
         ∃ iv, s.vec.get? x0 = some iv ∧ iv.value = k
     | Except.error index => -1 ≤ index ∧ index < (s.vec.length : Int) ∧
         (∀ (i : Nat) (a : Interval), (i : Int) ≤ index →
           s.vec.get? i = some a → a.value < k) ∧
         (∀ (i : Nat) (a : Interval), index < (i : Int) →
           s.vec.get? i = some a → k < a.value)) := by
  have hpw := sd_pairwise hsd
  have M1 : ∀ i j, i < j → j < s.vec.length →
      natCompare (s.vec.getD i ⟨0, 0⟩).value k = Ordering.gt →
      natCompare (s.vec.getD j ⟨0, 0⟩).value k = Ordering.gt := by
    intro i j hij hj hgt
    obtain ⟨a, ha⟩ := get?_ex (lt_trans hij hj)
    obtain ⟨b, hb⟩ := get?_ex hj
    rw [getD_of_get? ha] at hgt
    rw [getD_of_get? hb]
    rw [natCompare_gt_iff] at hgt ⊢
    have hr := pairwise_get? hpw hij ha hb
    unfold sepRel at hr
    omega
  have M2 : ∀ i j, i < j → j < s.vec.length →
      natCompare (s.vec.getD j ⟨0, 0⟩).value k = Ordering.lt →
      natCompare (s.vec.getD i ⟨0, 0⟩).value k = Ordering.lt := by
    intro i j hij hj hlt
    obtain ⟨a, ha⟩ := get?_ex (lt_trans hij hj)
    obtain ⟨b, hb⟩ := get?_ex hj
    rw [getD_of_get? hb] at hlt
    rw [getD_of_get? ha]
    rw [natCompare_lt_iff] at hlt ⊢
    have hr := pairwise_get? hpw hij ha hb
    unfold sepRel at hr
    omega
  have hspec := binarySearchBy_spec s.vec (fun iv => natCompare iv.value k) M1 M2
  unfold RunStore.interleavedBinarySearch
  cases hbs : binarySearchBy s.vec (fun iv => natCompare iv.value k) with
  | ok x =>
      rw [hbs] at hspec
      obtain ⟨hxlen, hxeq⟩ := hspec
      obtain ⟨a, ha⟩ := get?_ex hxlen
      refine ⟨x, rfl, a, ha, ?_⟩
      rw [getD_of_get? ha] at hxeq
      exact (natCompare_eq_iff a.value k).mp hxeq
  | error y =>
      rw [hbs] at hspec
      obtain ⟨hy, hlo, hhi⟩ := hspec
      refine ⟨by omega, by omega, ?_, ?_⟩
      · intro i a hle ha
        have hiy : i < y := by omega
        have := hlo i hiy
        rw [getD_of_get? ha] at this
        exact (natCompare_lt_iff a.value k).mp this
      · intro i a hgt ha
        have hiy : y ≤ i := by omega
        have := hhi i hiy (get?_len ha)
        rw [getD_of_get? ha] at this
        exact (natCompare_gt_iff a.value k).mp this

/-- On a sorted-disjoint store, `find_run` finds a run containing any key
that is a member of the encoded set. -/
theorem findRun_covers (s : RunStore) (k : Nat) (hsd : s.sortedDisjoint)
    (hmem : s.memK k) :
    ∃ x : Nat, s.findRun k = Except.ok (x : Int) ∧
      ∃ iv, s.vec.get? x = some iv ∧ iv.covers k := by
  have hpw := sd_pairwise hsd
  have hvalid := hsd.1
  have M1 : ∀ i j, i < j → j < s.vec.length →
      (s.vec.getD i ⟨0, 0⟩).compareToIndex k = Ordering.gt →
      (s.vec.getD j ⟨0, 0⟩).compareToIndex k = Ordering.gt := by
    intro i j hij hj hgt
    obtain ⟨a, ha⟩ := get?_ex (lt_trans hij hj)
    obtain ⟨b, hb⟩ := get?_ex hj
    rw [getD_of_get? ha] at hgt
    rw [getD_of_get? hb]
    rw [compareToIndex_gt_iff] at hgt ⊢
    have hr := pairwise_get? hpw hij ha hb
    unfold sepRel at hr
    omega
  have M2 : ∀ i j, i < j → j < s.vec.length →
      (s.vec.getD j ⟨0, 0⟩).compareToIndex k = Ordering.lt →
      (s.vec.getD i ⟨0, 0⟩).compareToIndex k = Ordering.lt := by
    intro i j hij hj hlt
    obtain ⟨a, ha⟩ := get?_ex (lt_trans hij hj)
    obtain ⟨b, hb⟩ := get?_ex hj
    rw [getD_of_get? hb] at hlt
    rw [getD_of_get? ha]
    rw [compareToIndex_lt_iff] at hlt ⊢
    have hr := pairwise_get? hpw hij ha hb
    unfold sepRel at hr
    have hva : a.getEnd = a.value + a.length :=
      getEnd_eq_of_valid (hvalid a (List.get?_mem ha))
    have hvb : b.getEnd = b.value + b.length :=
      getEnd_eq_of_valid (hvalid b (List.get?_mem hb))
    omega
  have hspec := binarySearchBy_spec s.vec (fun iv => iv.compareToIndex k) M1 M2
  unfold RunStore.findRun
  cases hbs : binarySearchBy s.vec (fun iv => iv.compareToIndex k) with
  | ok x =>
      rw [hbs] at hspec
      obtain ⟨hxlen, hxeq⟩ := hspec
      obtain ⟨a, ha⟩ := get?_ex hxlen
      refine ⟨x, rfl, a, ha, ?_⟩
      rw [getD_of_get? ha] at hxeq
      exact (compareToIndex_eq_iff a k).mp hxeq
  | error y =>
      exfalso
      rw [hbs] at hspec
      obtain ⟨hy, hlo, hhi⟩ := hspec
      obtain ⟨iv, hivmem, hcov⟩ := hmem
      obtain ⟨i, hi⟩ := List.get_of_mem hivmem
      have hget : s.vec.get? i = some iv := by
        rw [List.get?_eq_get i.isLt, hi]
      rcases Nat.lt_or_ge i.val y with h | h
      · have := hlo i.val h
        rw [getD_of_get? hget, compareToIndex_lt_iff] at this
        unfold Interval.covers at hcov
        omega
      · have := hhi i.val h i.isLt
        rw [getD_of_get? hget, compareToIndex_gt_iff] at this
        unfold Interval.covers at hcov
        omega

/-- Witness for C8 at concrete well-formed stores. -/
theorem claim_c8_commutative_witness :
    orOp ⟨[⟨1, 2⟩, ⟨6, 2⟩]⟩ ⟨[⟨4, 0⟩]⟩ = orOp ⟨[⟨4, 0⟩]⟩ ⟨[⟨1, 2⟩, ⟨6, 2⟩]⟩ ∧
    xorOp ⟨[⟨1, 2⟩, ⟨6, 2⟩]⟩ ⟨[⟨4, 0⟩]⟩ = xorOp ⟨[⟨4, 0⟩]⟩ ⟨[⟨1, 2⟩, ⟨6, 2⟩]⟩ ∧
    andOp ⟨[⟨1, 2⟩, ⟨6, 2⟩]⟩ ⟨[⟨4, 0⟩]⟩ = andOp ⟨[⟨4, 0⟩]⟩ ⟨[⟨1, 2⟩, ⟨6, 2⟩]⟩ :=
  claim_c8_commutative ⟨[⟨1, 2⟩, ⟨6, 2⟩]⟩ ⟨[⟨4, 0⟩]⟩ (by decide) (by decide)

-- List surgery helpers for the insert proof ---------------------------------

theorem get?_decomp {v : List Interval} {i : Nat} {a : Interval}
    (h : v.get? i = some a) : v = v.take i ++ a :: v.drop (i + 1) := by
  induction v generalizing i with
  | nil => cases h
  | cons x xs ih =>
      cases i with
      | zero =>
          have : x = a := by simpa using h
          simp [this]
      | succ i =>
          have h2 : xs.get? i = some a := by simpa using h
          simpa [List.take, List.drop] using ih h2

theorem take_len {v : List Interval} {i : Nat} {a : Interval}
    (h : v.get? i = some a) : (v.take i).length = i :=
  List.length_take_of_le (le_of_lt (get?_len h))

theorem set_decomp (P Q : List Interval) (a b : Interval) :
    (P ++ a :: Q).set P.length b = P ++ b :: Q := by
  induction P with
  | nil => rfl
  | cons p P ih => simpa using ih

theorem set_decomp2 (P Q : List Interval) (a b c : Interval) :
    (P ++ a :: b :: Q).set (P.length + 1) c = P ++ a :: c :: Q := by
  induction P with
  | nil => rfl
  | cons p P ih => simpa using ih

theorem erase_decomp (P Q : List Interval) (a b : Interval) :
    (P ++ a :: b :: Q).eraseIdx (P.length + 1) = P ++ a :: Q := by
  induction P with
  | nil => rfl
  | cons p P ih => simpa using ih

theorem insertIdx_decomp (P Q : List Interval) (a x : Interval) :
    (P ++ a :: Q).insertIdx (P.length + 1) x = P ++ a :: x :: Q := by
  induction P with
  | nil => rfl
  | cons p P ih => simpa [List.insertIdx] using ih

theorem mem_take_spec {v : List Interval} {n : Nat} {a : Interval}
    (h : a ∈ v.take n) : ∃ i, i < n ∧ v.get? i = some a := by
  obtain ⟨i, hi⟩ := List.mem_iff_get?.mp h
  have hlen : i < (v.take n).length := get?_len hi
  have hin : i < n := lt_of_lt_of_le hlen (by simpa using List.length_take_le n v)
  exact ⟨i, hin, by rw [← List.get?_take hin]; exact hi⟩

theorem mem_drop_spec {v : List Interval} {n : Nat} {a : Interval}
    (h : a ∈ v.drop n) : ∃ i, v.get? (n + i) = some a := by
  obtain ⟨i, hi⟩ := List.mem_iff_get?.mp h
  exact ⟨i, by rw [← List.get?_drop]; exact hi⟩

/-- Rebuild `sortedDisjoint` from validity and pairwise separation. -/
theorem sd_of_pairwise {s : RunStore} (h1 : ∀ iv ∈ s.vec, iv.valid)
    (h2 : s.vec.Pairwise sepRel) : s.sortedDisjoint :=
  ⟨h1, List.chain'_iff_pairwise.mpr h2⟩

theorem wadd_eq {a b : Nat} (h : a + b ≤ 65535) : wadd a b = a + b := by
  unfold wadd
  omega

theorem wsub_eq {a b : Nat} (hba : b ≤ a) (ha : a ≤ 65535) : wsub a b = a - b := by
  unfold wsub
  omega

theorem csub_some {a b : Nat} (h : b ≤ a) : csub a b = some (a - b) := by
  unfold csub
  rw [if_pos h]

theorem csub_none {a b : Nat} (h : a < b) : csub a b = none := by
  unfold csub
  rw [if_neg (by omega)]

theorem cadd_some {a b : Nat} (h : a + b ≤ 65535) : cadd a b = some (a + b) := by
  unfold cadd
  rw [if_pos h]

theorem optLe_true {a b : Nat} (h : a ≤ b) : optLe (some a) (some b) = true := by
  unfold optLe
  simpa using h

theorem optLe_false {a b : Nat} (h : b < a) : optLe (some a) (some b) = false := by
  unfold optLe
  simpa using by omega

theorem get?_append_len {P Q : List Interval} {x : Interval} :
    (P ++ x :: Q).get? P.length = some x := by
  induction P with
  | nil => rfl
  | cons p P ih => simpa using ih

theorem get?_append_len1 {P Q : List Interval} {x : Interval} :
    (P ++ x :: Q).get? (P.length + 1) = Q.get? 0 := by
  induction P with
  | nil => rfl
  | cons p P ih => simpa using ih

theorem get?_append_right1 {P Q : List Interval} {x : Interval} {j : Nat} :
    (P ++ x :: Q).get? (P.length + 1 + j) = Q.get? j := by
  induction P with
  | nil =>
      rw [show List.length ([] : List Interval) + 1 + j = j + 1 by
        simp
        omega]
      simp
  | cons p P ih =>
      have : (p :: P).length + 1 + j = (P.length + 1 + j) + 1 := by
        simp
        omega
      rw [this]
      simpa using ih

theorem tryFuse_none_r (a : Interval) : a.tryFuse none = none := rfl

theorem tryFuse_yes {a b : Interval} (hva : a.valid) (hvb : b.valid)
    (h : b.value = a.value + a.length + 2) :
    a.tryFuse (some b) = some ⟨a.value, b.value + b.length - a.value⟩ := by
  unfold Interval.valid at hva hvb
  have hred : a.tryFuse (some b) =
      (if csub b.value (wadd a.value a.length) = some 2 then
        some (Interval.fromPair (a.value, wadd b.value b.length))
      else if csub a.value (wadd b.value b.length) = some 2 then
        some (Interval.fromPair (b.value, wadd a.value a.length))
      else none) := rfl
  rw [hred]
  rw [wadd_eq (by omega), wadd_eq (by omega)]
  rw [csub_some (by omega)]
  rw [if_pos (by rw [Option.some_inj]; omega)]
  unfold Interval.fromPair
  rw [wsub_eq (by omega) (by omega)]

theorem tryFuse_no {a b : Interval} (hva : a.valid) (hvb : b.valid)
    (h1 : b.value ≠ a.value + a.length + 2) (h2 : a.value < b.value) :
    a.tryFuse (some b) = none := by
  unfold Interval.valid at hva hvb
  have hred : a.tryFuse (some b) =
      (if csub b.value (wadd a.value a.length) = some 2 then
        some (Interval.fromPair (a.value, wadd b.value b.length))
      else if csub a.value (wadd b.value b.length) = some 2 then
        some (Interval.fromPair (b.value, wadd a.value a.length))
      else none) := rfl
  rw [hred]
  rw [wadd_eq (by omega), wadd_eq (by omega)]
  have hc1 : csub b.value (a.value + a.length) ≠ some 2 := by
    by_cases hle : a.value + a.length ≤ b.value
    · rw [csub_some hle]
      rw [Ne, Option.some_inj]
      omega
    · rw [csub_none (by omega)]
      simp
  have hc2 : csub a.value (b.value + b.length) ≠ some 2 := by
    rw [csub_none (by omega)]
    simp
  rw [if_neg hc1, if_neg hc2]

theorem pairwise_split {R : Interval → Interval → Prop} {P Q : List Interval}
    {x : Interval} (h : (P ++ x :: Q).Pairwise R) :
    P.Pairwise R ∧ Q.Pairwise R ∧ (∀ a ∈ P, R a x) ∧
    (∀ b ∈ Q, R x b) ∧ (∀ a ∈ P, ∀ b ∈ Q, R a b) := by
  rw [List.pairwise_append] at h
  obtain ⟨hP, hxQ, hcross⟩ := h
  rw [List.pairwise_cons] at hxQ
  exact ⟨hP, hxQ.2, fun a ha => hcross a ha x (List.mem_cons_self x Q),
    hxQ.1, fun a ha b hb => hcross a ha b (List.mem_cons_of_mem x hb)⟩

theorem pairwise_glue {R : Interval → Interval → Prop} {P Q : List Interval}
    {x : Interval} (hP : P.Pairwise R) (hQ : Q.Pairwise R)
    (hPx : ∀ a ∈ P, R a x) (hxQ : ∀ b ∈ Q, R x b)
    (hPQ : ∀ a ∈ P, ∀ b ∈ Q, R a b) : (P ++ x :: Q).Pairwise R := by
  rw [List.pairwise_append]
  refine ⟨hP, List.pairwise_cons.mpr ⟨hxQ, hQ⟩, ?_⟩
  intro a ha b hb
  cases hb with
  | head => exact hPx a ha
  | tail _ hb2 => exact hPQ a ha b hb2

theorem not_memK_of {s : RunStore} {k : Nat} (hvalid : ∀ iv ∈ s.vec, iv.valid)
    (h : ∀ iv ∈ s.vec, iv.value + iv.length < k ∨ k < iv.value) : ¬ s.memK k := by
  rintro ⟨iv, hmem, hcov⟩
  unfold Interval.covers at hcov
  have hv := getEnd_eq_of_valid (hvalid iv hmem)
  rcases h iv hmem with h2 | h2 <;> omega

theorem memK_of_get? {s : RunStore} {k i : Nat} {iv : Interval}
    (hg : s.vec.get? i = some iv) (h1 : iv.value ≤ k) (h2 : k ≤ iv.getEnd) :
    s.memK k := ⟨iv, List.get?_mem hg, h1, h2⟩

theorem true_branch_iff {p : Prop} (hnot : ¬ p) : true = false ↔ p := by
  constructor
  · intro h; simp at h
  · intro hp; exact absurd hp hnot

theorem true_branch_imp {s2 s : RunStore} : true = false → s2 = s := by
  intro h; simp at h

/-- Master characterization of `RunStore::insert` on a well-formed store:
it never panics, returns `false` exactly when the key is already a member,
leaves the store sorted and disjoint, and afterwards the key is always a
member. -/
theorem insert_master (s : RunStore) (k : Nat) (hwf : s.wf) (hk : k ≤ 65535) :
    ∃ s2 b, s.insert k = some (s2, b) ∧
      (b = false ↔ s.memK k) ∧ (b = false → s2 = s) ∧
      s2.sortedDisjoint ∧ s2.memK k := by
  have hsd : s.sortedDisjoint := wf_sortedDisjoint hwf
  have hpw : s.vec.Pairwise sepRel := sd_pairwise hsd
  have hpwg : s.vec.Pairwise gapTwo := List.chain'_iff_pairwise.mp hwf.2
  have hvalid := hwf.1
  have hspec := interleaved_spec s k hsd
  cases hsearch : s.interleavedBinarySearch k with
  | ok x =>
      rw [hsearch] at hspec
      obtain ⟨x0, hx0, iv, hiv, hival⟩ := hspec
      have hvi := getEnd_eq_of_valid (hvalid iv (List.get?_mem hiv))
      have hmem : s.memK k := memK_of_get? hiv (by omega) (by omega)
      have heq : s.insert k = some (s, false) := by
        unfold RunStore.insert
        rw [hsearch]
      exact ⟨s, false, heq, ⟨fun _ => hmem, fun _ => rfl⟩, fun _ => rfl, hsd, hmem⟩
  | error index =>
      rw [hsearch] at hspec
      obtain ⟨hge, hlenI, hlow, hhigh⟩ := hspec
      by_cases hix : 0 ≤ index
      · obtain ⟨idx, hidx⟩ : ∃ idx : Nat, (idx : Int) = index :=
          ⟨index.toNat, Int.toNat_of_nonneg hix⟩
        have htn : index.toNat = idx := by omega
        have hidxlen : idx < s.vec.length := by omega
        obtain ⟨interval, hget⟩ := get?_ex hidxlen
        have hvk : interval.value < k := hlow idx interval (le_of_eq hidx) hget
        have hvalI : interval.valid := hvalid interval (List.get?_mem hget)
        have hvI : interval.value + interval.length ≤ 65535 := hvalI
        have hendI : interval.getEnd = interval.value + interval.length :=
          getEnd_eq_of_valid hvalI
        obtain ⟨P, Q, hdec, hPlen⟩ :
            ∃ P Q, s.vec = P ++ interval :: Q ∧ P.length = idx :=
          ⟨_, _, get?_decomp hget, take_len hget⟩
        have hgetP : ∀ {i : Nat} {a : Interval}, P.get? i = some a →
            s.vec.get? i = some a := by
          intro i a hgi
          rw [hdec, List.get?_append (get?_len hgi)]
          exact hgi
        have hgetQ : ∀ {j : Nat} {b : Interval}, Q.get? j = some b →
            s.vec.get? (idx + 1 + j) = some b := by
          intro j b hgj
          rw [hdec, ← hPlen, get?_append_right1]
          exact hgj
        have hPfact : ∀ a ∈ P, a.value + a.length < interval.value := by
          intro a ha
          obtain ⟨i, hgi⟩ := List.mem_iff_get?.mp ha
          have hiP : i < P.length := get?_len hgi
          exact pairwise_get? hpw (by omega) (hgetP hgi) hget
        have hQval : ∀ b ∈ Q, k < b.value := by
          intro b hb
          obtain ⟨j, hgj⟩ := List.mem_iff_get?.mp hb
          exact hhigh (idx + 1 + j) b (by omega) (hgetQ hgj)
        have hQgap : ∀ b ∈ Q, interval.value + interval.length + 2 ≤ b.value := by
          intro b hb
          obtain ⟨j, hgj⟩ := List.mem_iff_get?.mp hb
          exact pairwise_get? hpwg (by omega) hget (hgetQ hgj)
        obtain ⟨hPpw, hQpw, hPI, hIQ, hPQ⟩ := pairwise_split (hdec ▸ hpw)
        have hPmem : ∀ a ∈ P, a ∈ s.vec := by
          intro a ha
          rw [hdec]
          exact List.mem_append.mpr (Or.inl ha)
        have hQmem : ∀ b ∈ Q, b ∈ s.vec := by
          intro b hb
          rw [hdec]
          simp [hb]
        by_cases hcov : k ≤ interval.value + interval.length
        · -- the key is covered by vec[index]: no-op, return false
          have heq : s.insert k = some (s, false) := by
            unfold RunStore.insert
            simp only [hsearch]
            rw [if_pos hix, htn]
            simp only [hget]
            rw [if_pos (by rw [csub_some (le_of_lt hvk)]; exact optLe_true (by omega))]
          have hmem : s.memK k := memK_of_get? hget (by omega) (by omega)
          exact ⟨s, false, heq, ⟨fun _ => hmem, fun _ => rfl⟩, fun _ => rfl, hsd, hmem⟩
        · have hnA : interval.value + interval.length < k := by omega
          have hnotmem : ¬ s.memK k := by
            apply not_memK_of hvalid
            intro iv hiv
            rw [hdec] at hiv
            rcases List.mem_append.mp hiv with hivP | hivIQ
            · have := hPfact iv hivP
              omega
            · rcases List.mem_cons.mp hivIQ with heq2 | hivQ
              · subst heq2; omega
              · exact Or.inr (hQval iv hivQ)
          have hlen1 : interval.length + 1 ≤ 65535 := by omega
          have hoptF : ¬ (optLe (csub k interval.value) (some interval.length) = true) := by
            rw [csub_some (le_of_lt hvk), optLe_false (by omega)]
            simp
          have hgQ0 : s.vec.get? (idx + 1) = Q.get? 0 := by
            rw [hdec, ← hPlen, get?_append_len1]
          by_cases hB : k = interval.value + interval.length + 1
          · -- key extends vec[index] by exactly one
            have hoffeq : csub k interval.value = some (interval.length + 1) := by
              rw [csub_some (le_of_lt hvk), Option.some_inj]
              omega
            cases Q with
            | cons next Q2 =>
                have hgetn : s.vec.get? (idx + 1) = some next := by rw [hgQ0]; rfl
                have hvalN : next.valid := hvalid next (hQmem next (List.mem_cons_self _ _))
                have hvN : next.value + next.length ≤ 65535 := hvalN
                have hgapN : interval.value + interval.length + 2 ≤ next.value :=
                  hQgap next (List.mem_cons_self _ _)
                have hQpw2 : Q2.Pairwise sepRel := (List.pairwise_cons.mp hQpw).2
                have hnextQ2 : ∀ b ∈ Q2, sepRel next b := (List.pairwise_cons.mp hQpw).1
                by_cases hfuse : next.value = interval.value + interval.length + 2
                · -- fill the one-key gap and fuse the two runs
                  have htf := tryFuse_yes hvalI hvalN (by omega)
                  have hbound : idx + 1 < s.vec.length := get?_len hgetn
                  have hvec2 : (s.vec.eraseIdx (idx + 1)).set idx
                      (⟨interval.value, next.value + next.length - interval.value⟩ : Interval)
                      = P ++ (⟨interval.value,
                          next.value + next.length - interval.value⟩ : Interval) :: Q2 := by
                    rw [hdec, ← hPlen, erase_decomp, set_decomp]
                  have heq : s.insert k = some (⟨P ++ (⟨interval.value,
                      next.value + next.length - interval.value⟩ : Interval) :: Q2⟩, true) := by
                    unfold RunStore.insert
                    simp only [hsearch]
                    rw [if_pos hix, htn]
                    simp only [hget]
                    rw [if_neg hoptF]
                    simp only [cadd_some hlen1]
                    rw [if_pos hoffeq]
                    simp only [hgetn, htf]
                    rw [if_pos hbound, hvec2]
                  have hsd2 : RunStore.sortedDisjoint ⟨P ++ (⟨interval.value,
                      next.value + next.length - interval.value⟩ : Interval) :: Q2⟩ := by
                    apply sd_of_pairwise
                    · intro iv hiv
                      rcases List.mem_append.mp hiv with h | h
                      · exact hvalid iv (hPmem iv h)
                      · rcases List.mem_cons.mp h with rfl | h2
                        · show interval.value + (next.value + next.length - interval.value) ≤ 65535
                          omega
                        · exact hvalid iv (hQmem iv (List.mem_cons_of_mem _ h2))
                    · apply pairwise_glue hPpw hQpw2
                      · intro a ha
                        have := hPfact a ha
                        unfold sepRel
                        simp only
                        omega
                      · intro b hb
                        have h1 := hnextQ2 b hb
                        unfold sepRel at h1 ⊢
                        simp only
                        omega
                      · intro a ha b hb
                        exact hPQ a ha b (List.mem_cons_of_mem _ hb)
                  have hmem2 : RunStore.memK ⟨P ++ (⟨interval.value,
                      next.value + next.length - interval.value⟩ : Interval) :: Q2⟩ k := by
                    refine ⟨⟨interval.value, next.value + next.length - interval.value⟩,
                      by simp, ?_, ?_⟩
                    · show interval.value ≤ k
                      omega
                    · show k ≤ Interval.getEnd _
                      rw [show Interval.getEnd ⟨interval.value,
                          next.value + next.length - interval.value⟩ =
                          wadd interval.value (next.value + next.length - interval.value)
                          from rfl]
                      rw [wadd_eq (by omega)]
                      omega
                  exact ⟨_, true, heq, true_branch_iff hnotmem, true_branch_imp, hsd2, hmem2⟩
                · -- no fusion possible: grow the run by one
                  have htf := tryFuse_no hvalI hvalN (by omega) (by omega)
                  have hvec2 : s.vec.set idx
                      (⟨interval.value, interval.length + 1⟩ : Interval)
                      = P ++ (⟨interval.value, interval.length + 1⟩ : Interval)
                          :: next :: Q2 := by
                    rw [hdec, ← hPlen, set_decomp]
                  have heq : s.insert k = some (⟨P ++ (⟨interval.value,
                      interval.length + 1⟩ : Interval) :: next :: Q2⟩, true) := by
                    unfold RunStore.insert
                    simp only [hsearch]
                    rw [if_pos hix, htn]
                    simp only [hget]
                    rw [if_neg hoptF]
                    simp only [cadd_some hlen1]
                    rw [if_pos hoffeq]
                    simp only [hgetn, htf]
                    rw [hvec2]
                  have hsd2 : RunStore.sortedDisjoint ⟨P ++ (⟨interval.value,
                      interval.length + 1⟩ : Interval) :: next :: Q2⟩ := by
                    apply sd_of_pairwise
                    · intro iv hiv
                      rcases List.mem_append.mp hiv with h | h
                      · exact hvalid iv (hPmem iv h)
                      · rcases List.mem_cons.mp h with rfl | h2
                        · show interval.value + (interval.length + 1) ≤ 65535
                          omega
                        · exact hvalid iv (hQmem iv h2)
                    · apply pairwise_glue hPpw hQpw
                      · intro a ha
                        have := hPfact a ha
                        unfold sepRel
                        simp only
                        omega
                      · intro b hb
                        have h1 := hQgap b hb
                        unfold sepRel
                        simp only
                        omega
                      · exact hPQ
                  have hmem2 : RunStore.memK ⟨P ++ (⟨interval.value,
                      interval.length + 1⟩ : Interval) :: next :: Q2⟩ k := by
                    refine ⟨⟨interval.value, interval.length + 1⟩, by simp, ?_, ?_⟩
                    · show interval.value ≤ k
                      omega
                    · show k ≤ Interval.getEnd _
                      rw [show Interval.getEnd ⟨interval.value, interval.length + 1⟩ =
                          wadd interval.value (interval.length + 1) from rfl]
                      rw [wadd_eq (by omega)]
                      omega
                  exact ⟨_, true, heq, true_branch_iff hnotmem, true_branch_imp, hsd2, hmem2⟩
            | nil =>
                -- no following run: grow the run by one
                have hgetn : s.vec.get? (idx + 1) = none := by rw [hgQ0]; rfl
                have hvec2 : s.vec.set idx
                    (⟨interval.value, interval.length + 1⟩ : Interval)
                    = P ++ (⟨interval.value, interval.length + 1⟩ : Interval) :: [] := by
                  rw [hdec, ← hPlen, set_decomp]
                have heq : s.insert k = some (⟨P ++ (⟨interval.value,
                    interval.length + 1⟩ : Interval) :: []⟩, true) := by
                  unfold RunStore.insert
                  simp only [hsearch]
                  rw [if_pos hix, htn]
                  simp only [hget]
                  rw [if_neg hoptF]
                  simp only [cadd_some hlen1]
                  rw [if_pos hoffeq]
                  simp only [hgetn, tryFuse_none_r]
                  rw [hvec2]
                have hsd2 : RunStore.sortedDisjoint ⟨P ++ (⟨interval.value,
                    interval.length + 1⟩ : Interval) :: []⟩ := by
                  apply sd_of_pairwise
                  · intro iv hiv
                    rcases List.mem_append.mp hiv with h | h
                    · exact hvalid iv (hPmem iv h)
                    · rcases List.mem_cons.mp h with rfl | h2
                      · show interval.value + (interval.length + 1) ≤ 65535
                        omega
                      · cases h2
                  · apply pairwise_glue hPpw List.Pairwise.nil
                    · intro a ha
                      have := hPfact a ha
                      unfold sepRel
                      simp only
                      omega
                    · intro b hb
                      cases hb
                    · intro a _ b hb
                      cases hb
                have hmem2 : RunStore.memK ⟨P ++ (⟨interval.value,
                    interval.length + 1⟩ : Interval) :: []⟩ k := by
                  refine ⟨⟨interval.value, interval.length + 1⟩, by simp, ?_, ?_⟩
                  · show interval.value ≤ k
                    omega
                  · show k ≤ Interval.getEnd _
                    rw [show Interval.getEnd ⟨interval.value, interval.length + 1⟩ =
                        wadd interval.value (interval.length + 1) from rfl]
                    rw [wadd_eq (by omega)]
                    omega
                exact ⟨_, true, heq, true_branch_iff hnotmem, true_branch_imp, hsd2, hmem2⟩
          · -- key is at least two past the end of vec[index]
            have hC : interval.value + interval.length + 2 ≤ k := by omega
            have hoffne : ¬ (csub k interval.value = some (interval.length + 1)) := by
              rw [csub_some (le_of_lt hvk)]
              intro h
              rw [Option.some_inj] at h
              omega
            cases Q with
            | cons next Q2 =>
                have hgetn : s.vec.get? (idx + 1) = some next := by rw [hgQ0]; rfl
                have hvalN : next.valid := hvalid next (hQmem next (List.mem_cons_self _ _))
                have hvN : next.value + next.length ≤ 65535 := hvalN
                have hkn : k < next.value := hQval next (List.mem_cons_self _ _)
                have hk1 : cadd k 1 = some (k + 1) := cadd_some (by omega)
                have hQpw2 : Q2.Pairwise sepRel := (List.pairwise_cons.mp hQpw).2
                have hnextQ2 : ∀ b ∈ Q2, sepRel next b := (List.pairwise_cons.mp hQpw).1
                by_cases hpre : next.value = k + 1
                · -- key immediately precedes the next run: prepend to it
                  have hcaddN : cadd next.length 1 = some (next.length + 1) :=
                    cadd_some (by omega)
                  have hvec2 : s.vec.set (idx + 1) (⟨k, next.length + 1⟩ : Interval)
                      = P ++ interval :: (⟨k, next.length + 1⟩ : Interval) :: Q2 := by
                    rw [hdec, ← hPlen, set_decomp2]
                  have heq : s.insert k = some (⟨P ++ interval ::
                      (⟨k, next.length + 1⟩ : Interval) :: Q2⟩, true) := by
                    unfold RunStore.insert
                    simp only [hsearch]
                    rw [if_pos hix, htn]
                    simp only [hget]
                    rw [if_neg hoptF]
                    simp only [cadd_some hlen1]
                    rw [if_neg hoffne]
                    simp only [hgetn, hk1]
                    rw [if_pos hpre]
                    simp only [hcaddN]
                    rw [hvec2]
                  have hsd2 : RunStore.sortedDisjoint ⟨P ++ interval ::
                      (⟨k, next.length + 1⟩ : Interval) :: Q2⟩ := by
                    apply sd_of_pairwise
                    · intro iv hiv
                      rcases List.mem_append.mp hiv with h | h
                      · exact hvalid iv (hPmem iv h)
                      · rcases List.mem_cons.mp h with rfl | h2
                        · exact hvalI
                        · rcases List.mem_cons.mp h2 with rfl | h3
                          · show k + (next.length + 1) ≤ 65535
                            omega
                          · exact hvalid iv (hQmem iv (List.mem_cons_of_mem _ h3))
                    · apply pairwise_glue hPpw
                      · exact List.pairwise_cons.mpr ⟨by
                          intro b hb
                          have h1 := hnextQ2 b hb
                          unfold sepRel at h1 ⊢
                          simp only
                          omega, hQpw2⟩
                      · exact hPI
                      · intro b hb
                        rcases List.mem_cons.mp hb with rfl | h3
                        · unfold sepRel
                          simp only
                          omega
                        · exact hIQ b (List.mem_cons_of_mem _ h3)
                      · intro a ha b hb
                        rcases List.mem_cons.mp hb with rfl | h3
                        · have := hPfact a ha
                          unfold sepRel
                          simp only
                          omega
                        · exact hPQ a ha b (List.mem_cons_of_mem _ h3)
                  have hmem2 : RunStore.memK ⟨P ++ interval ::
                      (⟨k, next.length + 1⟩ : Interval) :: Q2⟩ k := by
                    refine ⟨⟨k, next.length + 1⟩, by simp, le_refl k, ?_⟩
                    show k ≤ Interval.getEnd _
                    rw [show Interval.getEnd ⟨k, next.length + 1⟩ =
                        wadd k (next.length + 1) from rfl]
                    rw [wadd_eq (by omega)]
                    omega
                  exact ⟨_, true, heq, true_branch_iff hnotmem, true_branch_imp, hsd2, hmem2⟩
                · -- a fresh singleton run between vec[index] and the next run
                  have hins : s.insertTail k index = some (⟨P ++ interval ::
                      (⟨k, 0⟩ : Interval) :: next :: Q2⟩, true) := by
                    unfold RunStore.insertTail
                    rw [if_neg (by omega : ¬ index = -1)]
                    unfold RunStore.insertFinal
                    rw [if_pos (by omega)]
                    rw [show (index + 1).toNat = idx + 1 by omega]
                    rw [if_pos (by omega : idx + 1 ≤ s.vec.length)]
                    rw [hdec, ← hPlen]
                    rw [show (Interval.fromKey k) = (⟨k, 0⟩ : Interval) from rfl]
                    rw [insertIdx_decomp]
                  have heq : s.insert k = some (⟨P ++ interval ::
                      (⟨k, 0⟩ : Interval) :: next :: Q2⟩, true) := by
                    unfold RunStore.insert
                    simp only [hsearch]
                    rw [if_pos hix, htn]
                    simp only [hget]
                    rw [if_neg hoptF]
                    simp only [cadd_some hlen1]
                    rw [if_neg hoffne]
                    simp only [hgetn, hk1]
                    rw [if_neg hpre]
                    exact hins
                  have hsd2 : RunStore.sortedDisjoint ⟨P ++ interval ::
                      (⟨k, 0⟩ : Interval) :: next :: Q2⟩ := by
                    apply sd_of_pairwise
                    · intro iv hiv
                      rcases List.mem_append.mp hiv with h | h
                      · exact hvalid iv (hPmem iv h)
                      · rcases List.mem_cons.mp h with rfl | h2
                        · exact hvalI
                        · rcases List.mem_cons.mp h2 with rfl | h3
                          · show k + 0 ≤ 65535
                            omega
                          · exact hvalid iv (hQmem iv h3)
                    · apply pairwise_glue hPpw
                      · refine List.pairwise_cons.mpr ⟨?_, hQpw⟩
                        intro b hb
                        have := hQval b hb
                        unfold sepRel
                        simp only
                        omega
                      · exact hPI
                      · intro b hb
                        rcases List.mem_cons.mp hb with rfl | h3
                        · unfold sepRel
                          simp only
                          omega
                        · exact hIQ b h3
                      · intro a ha b hb
                        rcases List.mem_cons.mp hb with rfl | h3
                        · have := hPfact a ha
                          unfold sepRel
                          simp only
                          omega
                        · exact hPQ a ha b h3
                  have hmem2 : RunStore.memK ⟨P ++ interval ::
                      (⟨k, 0⟩ : Interval) :: next :: Q2⟩ k := by
                    refine ⟨⟨k, 0⟩, by simp, le_refl k, ?_⟩
                    show k ≤ Interval.getEnd _
                    rw [show Interval.getEnd ⟨k, 0⟩ = wadd k 0 from rfl]
                    rw [wadd_eq (by omega)]
                    omega
                  exact ⟨_, true, heq, true_branch_iff hnotmem, true_branch_imp, hsd2, hmem2⟩
            | nil =>
                -- the key goes past the last run: append a singleton
                have hgetn : s.vec.get? (idx + 1) = none := by rw [hgQ0]; rfl
                have hins : s.insertTail k index = some (⟨P ++ interval ::
                    (⟨k, 0⟩ : Interval) :: []⟩, true) := by
                  unfold RunStore.insertTail
                  rw [if_neg (by omega : ¬ index = -1)]
                  unfold RunStore.insertFinal
                  rw [if_pos (by omega)]
                  rw [show (index + 1).toNat = idx + 1 by omega]
                  rw [if_pos (by omega : idx + 1 ≤ s.vec.length)]
                  rw [hdec, ← hPlen]
                  rw [show (Interval.fromKey k) = (⟨k, 0⟩ : Interval) from rfl]
                  rw [insertIdx_decomp]
                have heq : s.insert k = some (⟨P ++ interval ::
                    (⟨k, 0⟩ : Interval) :: []⟩, true) := by
                  unfold RunStore.insert
                  simp only [hsearch]
                  rw [if_pos hix, htn]
                  simp only [hget]
                  rw [if_neg hoptF]
                  simp only [cadd_some hlen1]
                  rw [if_neg hoffne]
                  simp only [hgetn]
                  exact hins
                have hsd2 : RunStore.sortedDisjoint ⟨P ++ interval ::
                    (⟨k, 0⟩ : Interval) :: []⟩ := by
                  apply sd_of_pairwise
                  · intro iv hiv
                    rcases List.mem_append.mp hiv with h | h
                    · exact hvalid iv (hPmem iv h)
                    · rcases List.mem_cons.mp h with rfl | h2
                      · exact hvalI
                      · rcases List.mem_cons.mp h2 with rfl | h3
                        · show k + 0 ≤ 65535
                          omega
                        · cases h3
                  · apply pairwise_glue hPpw
                    · refine List.pairwise_cons.mpr ⟨?_, List.Pairwise.nil⟩
                      intro b hb
                      cases hb
                    · exact hPI
                    · intro b hb
                      rcases List.mem_cons.mp hb with rfl | h3
                      · unfold sepRel
                        simp only
                        omega
                      · cases h3
                    · intro a ha b hb
                      rcases List.mem_cons.mp hb with rfl | h3
                      · have := hPfact a ha
                        unfold sepRel
                        simp only
                        omega
                      · cases h3
                have hmem2 : RunStore.memK ⟨P ++ interval ::
                    (⟨k, 0⟩ : Interval) :: []⟩ k := by
                  refine ⟨⟨k, 0⟩, by simp, le_refl k, ?_⟩
                  show k ≤ Interval.getEnd _
                  rw [show Interval.getEnd ⟨k, 0⟩ = wadd k 0 from rfl]
                  rw [wadd_eq (by omega)]
                  omega
                exact ⟨_, true, heq, true_branch_iff hnotmem, true_branch_imp, hsd2, hmem2⟩
      · -- index = -1: the key is below every run
        have hm1 : index = -1 := by omega
        subst hm1
        have hallgt : ∀ iv ∈ s.vec, k < iv.value := by
          intro iv hiv
          obtain ⟨i, hgi⟩ := List.mem_iff_get?.mp hiv
          exact hhigh i iv (by omega) hgi
        have hnotmem : ¬ s.memK k := by
          apply not_memK_of hvalid
          intro iv hiv
          exact Or.inr (hallgt iv hiv)
        have hred : s.insert k = s.insertTail k (-1) := by
          unfold RunStore.insert
          simp only [hsearch]
          rw [if_neg hix]
        cases hv : s.vec with
        | nil =>
            have hg0 : s.vec.get? 0 = none := by rw [hv]; rfl
            have heq : s.insert k = some (⟨[⟨k, 0⟩]⟩, true) := by
              rw [hred]
              unfold RunStore.insertTail
              rw [if_pos rfl]
              simp only [hg0, tryFuse_none_r]
              unfold RunStore.insertFinal
              rw [if_pos (by omega)]
              rw [show ((-1 : Int) + 1).toNat = 0 from rfl]
              rw [if_pos (Nat.zero_le _), hv]
              rfl
            have hsd2 : RunStore.sortedDisjoint ⟨[⟨k, 0⟩]⟩ := by
              refine ⟨?_, ?_⟩
              · intro iv hiv
                rcases List.mem_cons.mp hiv with rfl | h2
                · show k + 0 ≤ 65535
                  omega
                · cases h2
              · exact List.chain'_singleton _
            have hmem2 : RunStore.memK ⟨[⟨k, 0⟩]⟩ k := by
              refine ⟨⟨k, 0⟩, by simp, le_refl k, ?_⟩
              show k ≤ Interval.getEnd _
              rw [show Interval.getEnd ⟨k, 0⟩ = wadd k 0 from rfl]
              rw [wadd_eq (by omega)]
              omega
            exact ⟨_, true, heq, true_branch_iff hnotmem, true_branch_imp, hsd2, hmem2⟩
        | cons first rest =>
            have hg0 : s.vec.get? 0 = some first := by rw [hv]; rfl
            have hfk : k < first.value := hhigh 0 first (by omega) hg0
            have hvalF : first.valid := hvalid first (by rw [hv]; exact List.mem_cons_self _ _)
            have hvF : first.value + first.length ≤ 65535 := hvalF
            have hvK : (⟨k, 0⟩ : Interval).valid := by
              show k + 0 ≤ 65535
              omega
            have hrestpw : rest.Pairwise sepRel ∧ ∀ b ∈ rest, sepRel first b := by
              have := hv ▸ hpw
              rw [List.pairwise_cons] at this
              exact ⟨this.2, this.1⟩
            by_cases hfu : first.value = k + 2
            · -- fuse the synthetic singleton with the first run
              have htf := tryFuse_yes hvK hvalF (by simp only; omega)
              have heq : s.insert k = some
                  (⟨(⟨k, first.value + first.length - k⟩ : Interval) :: rest⟩, true) := by
                rw [hred]
                unfold RunStore.insertTail
                rw [if_pos rfl]
                simp only [hg0]
                rw [show (Interval.fromKey k) = (⟨k, 0⟩ : Interval) from rfl]
                simp only [htf]
                simp only [hv]
                rfl
              have hsd2 : RunStore.sortedDisjoint
                  ⟨(⟨k, first.value + first.length - k⟩ : Interval) :: rest⟩ := by
                apply sd_of_pairwise
                · intro iv hiv
                  rcases List.mem_cons.mp hiv with rfl | h2
                  · show k + (first.value + first.length - k) ≤ 65535
                    omega
                  · exact hvalid iv (by rw [hv]; exact List.mem_cons_of_mem _ h2)
                · refine List.pairwise_cons.mpr ⟨?_, hrestpw.1⟩
                  intro b hb
                  have h1 := hrestpw.2 b hb
                  unfold sepRel at h1 ⊢
                  simp only
                  omega
              have hmem2 : RunStore.memK
                  ⟨(⟨k, first.value + first.length - k⟩ : Interval) :: rest⟩ k := by
                refine ⟨⟨k, first.value + first.length - k⟩, by simp, le_refl k, ?_⟩
                show k ≤ Interval.getEnd _
                rw [show Interval.getEnd ⟨k, first.value + first.length - k⟩ =
                    wadd k (first.value + first.length - k) from rfl]
                rw [wadd_eq (by omega)]
                omega
              exact ⟨_, true, heq, true_branch_iff hnotmem, true_branch_imp, hsd2, hmem2⟩
            · -- no fusion: a fresh singleton run in front
              have htf := tryFuse_no hvK hvalF (by simp only; omega) (by simp only; omega)
              have heq : s.insert k = some (⟨(⟨k, 0⟩ : Interval) :: s.vec⟩, true) := by
                rw [hred]
                unfold RunStore.insertTail
                rw [if_pos rfl]
                simp only [hg0]
                rw [show (Interval.fromKey k) = (⟨k, 0⟩ : Interval) from rfl]
                simp only [htf]
                unfold RunStore.insertFinal
                rw [if_pos (by omega)]
                rw [show ((-1 : Int) + 1).toNat = 0 from rfl]
                rw [if_pos (Nat.zero_le _)]
                rfl
              have hsd2 : RunStore.sortedDisjoint ⟨(⟨k, 0⟩ : Interval) :: s.vec⟩ := by
                apply sd_of_pairwise
                · intro iv hiv
                  rcases List.mem_cons.mp hiv with rfl | h2
                  · exact hvK
                  · exact hvalid iv h2
                · refine List.pairwise_cons.mpr ⟨?_, hpw⟩
                  intro b hb
                  have := hallgt b hb
                  unfold sepRel
                  simp only
                  omega
              have hmem2 : RunStore.memK ⟨(⟨k, 0⟩ : Interval) :: s.vec⟩ k := by
                refine ⟨⟨k, 0⟩, by simp, le_refl k, ?_⟩
                show k ≤ Interval.getEnd _
                rw [show Interval.getEnd ⟨k, 0⟩ = wadd k 0 from rfl]
                rw [wadd_eq (by omega)]
                omega
              exact ⟨_, true, heq, true_branch_iff hnotmem, true_branch_imp, hsd2, hmem2⟩

/-- On a sorted-disjoint store, inserting a key that is already a member is
a no-op returning `false`. -/
theorem insert_mem_false (s : RunStore) (k : Nat) (hsd : s.sortedDisjoint)
    (hmem : s.memK k) : s.insert k = some (s, false) := by
  have hpw := sd_pairwise hsd
  have hvalid := hsd.1
  have hspec := interleaved_spec s k hsd
  cases hsearch : s.interleavedBinarySearch k with
  | ok x =>
      unfold RunStore.insert
      rw [hsearch]
  | error index =>
      rw [hsearch] at hspec
      obtain ⟨hge, hlenI, hlow, hhigh⟩ := hspec
      obtain ⟨iv, hivmem, hcov⟩ := hmem
      obtain ⟨i, hgi⟩ := List.mem_iff_get?.mp hivmem
      have hvi := getEnd_eq_of_valid (hvalid iv hivmem)
      unfold Interval.covers at hcov
      have hile : (i : Int) ≤ index := by
        by_contra hgt
        push_neg at hgt
        have := hhigh i iv hgt hgi
        omega
      have hix : 0 ≤ index := le_trans (by omega) hile
      obtain ⟨idx, hidx⟩ : ∃ idx : Nat, (idx : Int) = index :=
        ⟨index.toNat, Int.toNat_of_nonneg hix⟩
      have htn : index.toNat = idx := by omega
      have hidxlen : idx < s.vec.length := by omega
      obtain ⟨interval, hget⟩ := get?_ex hidxlen
      have hvk : interval.value < k := hlow idx interval (le_of_eq hidx) hget
      have hiidx : i = idx := by
        rcases Nat.lt_trichotomy i idx with h | h | h
        · have := pairwise_get? hpw h hgi hget
          unfold sepRel at this
          omega
        · exact h
        · have := hhigh i iv (by omega) hgi
          omega
      subst hiidx
      have hiv2 : interval = iv := by
        rw [hget] at hgi
        exact Option.some_inj.mp hgi
      subst hiv2
      unfold RunStore.insert
      simp only [hsearch]
      rw [if_pos hix, htn]
      simp only [hget]
      rw [if_pos (by rw [csub_some (le_of_lt hvk)]; exact optLe_true (by omega))]

/-- C7: for every well-formed store and 16-bit key, `insert` returns `true`
exactly when the key was not yet a member; immediately afterwards `find_run`
returns `Ok` with the index of a run containing the key, and a second
`insert` of the same key returns `false`. -/
theorem claim_c7_insert_find_idempotent (s : RunStore) (k : Nat)
    (hwf : s.wf) (hk : k ≤ 65535) :
    ∃ s2 b, s.insert k = some (s2, b) ∧
      (b = true ↔ ¬ s.memK k) ∧
      (∃ x : Nat, s2.findRun k = Except.ok (x : Int) ∧
        ∃ iv, s2.vec.get? x = some iv ∧ iv.covers k) ∧
      s2.insert k = some (s2, false) := by
  obtain ⟨s2, b, heq, hiff, _, hsd2, hmem2⟩ := insert_master s k hwf hk
  refine ⟨s2, b, heq, ?_, findRun_covers s2 k hsd2 hmem2,
    insert_mem_false s2 k hsd2 hmem2⟩
  cases b
  · have hm := hiff.mp rfl
    exact ⟨fun h => by simp at h, fun hn => absurd hm hn⟩
  · have hnm : ¬ s.memK k := fun hm => by
      have := hiff.mpr hm
      simp at this
    exact ⟨fun _ => hnm, fun _ => rfl⟩

/-- Witness for C7 applied at a concrete well-formed store and key. -/
theorem claim_c7_insert_find_idempotent_witness :
    ∃ s2 b, RunStore.insert ⟨[⟨5, 5⟩]⟩ 12 = some (s2, b) ∧
      (b = true ↔ ¬ RunStore.memK ⟨[⟨5, 5⟩]⟩ 12) ∧
      (∃ x : Nat, s2.findRun 12 = Except.ok (x : Int) ∧
        ∃ iv, s2.vec.get? x = some iv ∧ iv.covers 12) ∧
      s2.insert 12 = some (s2, false) :=
  claim_c7_insert_find_idempotent ⟨[⟨5, 5⟩]⟩ 12 (by decide) (by decide)

/-- C10: `insert` is total on stores satisfying the invariant: it hits no
panic point (every vector index is in bounds, no arithmetic overflows or
underflows, the first-slot write only happens on a non-empty vector), for
every 16-bit key including 0 and 65535 and every well-formed store
including the empty one. -/
theorem claim_c10_insert_total (s : RunStore) (k : Nat)
    (hwf : s.wf) (hk : k ≤ 65535) : (s.insert k).isSome := by
  obtain ⟨s2, b, heq, _⟩ := insert_master s k hwf hk
  rw [heq]
  rfl

/-- Witness for C10 at the empty store and the extreme key 65535. -/
theorem claim_c10_insert_total_witness :
    (RunStore.insert ⟨[]⟩ 65535).isSome :=
  claim_c10_insert_total ⟨[]⟩ 65535 (by decide) (by decide)

-- General correctness of the union sweep away from the key-space boundary:
-- when every operand interval ends at most at 65534 the writer's end+1
-- guard cannot wrap, and or produces a well-formed store encoding exactly
-- the union. (This isolates the C3/C6 defect to the unguarded boundary.)

/-- Membership of a key in a list of intervals. -/
def covList (l : List Interval) (k : Nat) : Prop := ∃ iv ∈ l, iv.covers k

theorem visitInterval_empty (x : Interval) : visitInterval [] x = some [x] := rfl

theorem visitInterval_merge {acc : List Interval} {last x : Interval}
    (hlast : acc.getLast? = some last) (hle : last.value ≤ x.value)
    (hcond : x.value ≤ wadd last.getEnd 1) :
    visitInterval acc x =
      some (acc.dropLast ++
        [⟨last.value, wsub (max last.getEnd x.getEnd) last.value⟩]) := by
  unfold visitInterval
  simp only [hlast]
  rw [if_pos hle, if_pos hcond]

theorem visitInterval_push {acc : List Interval} {last x : Interval}
    (hlast : acc.getLast? = some last) (hle : last.value ≤ x.value)
    (hcond : ¬ (x.value ≤ wadd last.getEnd 1)) :
    visitInterval acc x = some (acc ++ [x]) := by
  unfold visitInterval
  simp only [hlast]
  rw [if_pos hle, if_neg hcond]

theorem covList_append (l1 l2 : List Interval) (k : Nat) :
    covList (l1 ++ l2) k ↔ covList l1 k ∨ covList l2 k := by
  unfold covList
  constructor
  · rintro ⟨iv, hm, hc⟩
    rcases List.mem_append.mp hm with h | h
    · exact Or.inl ⟨iv, h, hc⟩
    · exact Or.inr ⟨iv, h, hc⟩
  · rintro (⟨iv, hm, hc⟩ | ⟨iv, hm, hc⟩)
    · exact ⟨iv, List.mem_append.mpr (Or.inl hm), hc⟩
    · exact ⟨iv, List.mem_append.mpr (Or.inr hm), hc⟩

theorem covList_cons (a : Interval) (l : List Interval) (k : Nat) :
    covList (a :: l) k ↔ a.covers k ∨ covList l k := by
  unfold covList
  constructor
  · rintro ⟨iv, hm, hc⟩
    rcases List.mem_cons.mp hm with rfl | h
    · exact Or.inl hc
    · exact Or.inr ⟨iv, h, hc⟩
  · rintro (hc | ⟨iv, hm, hc⟩)
    · exact ⟨a, List.mem_cons_self _ _, hc⟩
    · exact ⟨iv, List.mem_cons_of_mem _ hm, hc⟩

theorem covList_nil (k : Nat) : covList [] k ↔ False := by
  unfold covList
  simp

theorem dropLast_getLast {acc : List Interval} {last : Interval}
    (hlast : acc.getLast? = some last) : acc = acc.dropLast ++ [last] := by
  have hne : acc ≠ [] := by
    intro h
    rw [h] at hlast
    cases hlast
  conv_lhs => rw [← List.dropLast_append_getLast hne]
  rw [List.getLast?_eq_getLast acc hne] at hlast
  rw [Option.some_inj.mp hlast]

/-- The writer invariant for the union sweep: folding a sorted stream of
intervals (all ending at or below 65534) into a well-formed accumulator
whose last start is at most every incoming start succeeds and yields a
well-formed store whose set is the union. -/
theorem visit_fold_spec : ∀ (l acc : List Interval),
    (∀ iv ∈ l, iv.value + iv.length ≤ 65534) →
    (∀ iv ∈ acc, iv.value + iv.length ≤ 65534) →
    l.Pairwise (fun a b => a.value ≤ b.value) →
    (∀ iv ∈ l, ∀ la, acc.getLast? = some la → la.value ≤ iv.value) →
    acc.Pairwise gapTwo →
    ∃ res, l.foldlM visitInterval acc = some res ∧
      (∀ iv ∈ res, iv.value + iv.length ≤ 65534) ∧
      res.Pairwise gapTwo ∧
      (∀ k, covList res k ↔ covList acc k ∨ covList l k) := by
  intro l
  induction l with
  | nil =>
      intro acc _ hacc _ _ hpw
      refine ⟨acc, rfl, hacc, hpw, ?_⟩
      intro k
      rw [covList_nil]
      tauto
  | cons x rest ih =>
      intro acc hl hacc hsort hlastle hpw
      have hxv : x.value + x.length ≤ 65534 := hl x (List.mem_cons_self _ _)
      have hxend : x.getEnd = x.value + x.length := getEnd_eq_of_valid (by
        show x.value + x.length ≤ 65535
        omega)
      cases hlast : acc.getLast? with
      | none =>
          have haccnil : acc = [] := by simpa using hlast
          subst haccnil
          rw [List.foldlM_cons, visitInterval_empty]
          show ∃ res, rest.foldlM visitInterval [x] = some res ∧ _
          obtain ⟨res, hres, hv, hp, hcov⟩ := ih [x]
            (fun iv hiv => hl iv (List.mem_cons_of_mem _ hiv))
            (by
              intro iv hiv
              rcases List.mem_cons.mp hiv with rfl | h
              · omega
              · cases h)
            ((List.pairwise_cons.mp hsort).2)
            (by
              intro iv hiv la hla
              have hx2 : x = la := by simpa using hla
              subst hx2
              exact (List.pairwise_cons.mp hsort).1 iv hiv)
            (List.pairwise_cons.mpr ⟨fun b hb => absurd hb (List.not_mem_nil b),
              List.Pairwise.nil⟩)
          refine ⟨res, hres, hv, hp, ?_⟩
          intro k
          rw [hcov k]
          simp only [covList_cons, covList_nil]
          tauto
      | some last =>
          have hlastmem : last ∈ acc := by
            have hd := dropLast_getLast hlast
            rw [hd]
            simp
          have hlv : last.value + last.length ≤ 65534 := hacc last hlastmem
          have hlend : last.getEnd = last.value + last.length := getEnd_eq_of_valid (by
            show last.value + last.length ≤ 65535
            omega)
          have hle : last.value ≤ x.value :=
            hlastle x (List.mem_cons_self _ _) last hlast
          have hwadd : wadd last.getEnd 1 = last.value + last.length + 1 := by
            rw [hlend]
            exact wadd_eq (by omega)
          have hd := dropLast_getLast hlast
          obtain ⟨hDpw, _, hDlast, _, _⟩ :=
            pairwise_split (P := acc.dropLast) (Q := []) (x := last) (hd ▸ hpw)
          by_cases hcond : x.value ≤ wadd last.getEnd 1
          · -- merge into the last accumulated run
            rw [List.foldlM_cons, visitInterval_merge hlast hle hcond]
            have hmaxle : last.value ≤ max last.getEnd x.getEnd := by
              rw [hlend]
              omega
            have hmax65534 : max last.getEnd x.getEnd ≤ 65534 := by
              rw [hlend, hxend]
              omega
            have hnlsum : (⟨last.value,
                wsub (max last.getEnd x.getEnd) last.value⟩ : Interval).value +
                (⟨last.value, wsub (max last.getEnd x.getEnd) last.value⟩ : Interval).length
                = max last.getEnd x.getEnd := by
              show last.value + wsub (max last.getEnd x.getEnd) last.value = _
              rw [wsub_eq hmaxle (by omega)]
              omega
            have hnlend : (⟨last.value,
                wsub (max last.getEnd x.getEnd) last.value⟩ : Interval).getEnd
                = max last.getEnd x.getEnd := by
              show wadd last.value (wsub (max last.getEnd x.getEnd) last.value) = _
              rw [wsub_eq hmaxle (by omega)]
              rw [wadd_eq (by omega)]
              omega
            show ∃ res, rest.foldlM visitInterval (acc.dropLast ++
              [⟨last.value, wsub (max last.getEnd x.getEnd) last.value⟩]) = some res ∧ _
            obtain ⟨res, hres, hv, hp, hcov⟩ := ih (acc.dropLast ++
                [⟨last.value, wsub (max last.getEnd x.getEnd) last.value⟩])
              (fun iv hiv => hl iv (List.mem_cons_of_mem _ hiv))
              (by
                intro iv hiv
                rcases List.mem_append.mp hiv with h | h
                · exact hacc iv (by rw [hd]; exact List.mem_append.mpr (Or.inl h))
                · have hivnl : iv = ⟨last.value,
                      wsub (max last.getEnd x.getEnd) last.value⟩ := by simpa using h
                  subst hivnl
                  omega)
              ((List.pairwise_cons.mp hsort).2)
              (by
                intro iv hiv la hla
                rw [List.getLast?_concat] at hla
                have hlanl : la = ⟨last.value,
                    wsub (max last.getEnd x.getEnd) last.value⟩ :=
                  (Option.some_inj.mp hla).symm
                subst hlanl
                have h1 : x.value ≤ iv.value := (List.pairwise_cons.mp hsort).1 iv hiv
                show last.value ≤ iv.value
                omega)
              (by
                apply pairwise_glue hDpw List.Pairwise.nil
                · intro a ha
                  exact hDlast a ha
                · intro b hb
                  cases hb
                · intro a _ b hb
                  cases hb)
            refine ⟨res, hres, hv, hp, ?_⟩
            intro k
            rw [hcov k, covList_append, covList_cons, covList_cons, covList_nil]
            have hsplitacc : covList acc k ↔ covList acc.dropLast k ∨ last.covers k := by
              conv_lhs => rw [hd]
              rw [covList_append, covList_cons, covList_nil]
              tauto
            have hcovnl : (⟨last.value,
                wsub (max last.getEnd x.getEnd) last.value⟩ : Interval).covers k ↔
                (last.covers k ∨ x.covers k) := by
              unfold Interval.covers
              rw [hnlend, hlend, hxend]
              show last.value ≤ k ∧ k ≤ max (last.value + last.length)
                  (x.value + x.length) ↔ _
              rw [hwadd] at hcond
              constructor
              · intro hkk
                by_cases h3 : k ≤ last.value + last.length
                · exact Or.inl ⟨hkk.1, h3⟩
                · refine Or.inr ⟨by omega, by omega⟩
              · intro hkk
                rcases hkk with ⟨h1, h2⟩ | ⟨h1, h2⟩
                · exact ⟨h1, by omega⟩
                · exact ⟨by omega, by omega⟩
            rw [hsplitacc, hcovnl]
            tauto
          · -- push a new run
            rw [List.foldlM_cons, visitInterval_push hlast hle hcond]
            show ∃ res, rest.foldlM visitInterval (acc ++ [x]) = some res ∧ _
            have hx2 : last.value + last.length + 2 ≤ x.value := by
              rw [hwadd] at hcond
              omega
            obtain ⟨res, hres, hv, hp, hcov⟩ := ih (acc ++ [x])
              (fun iv hiv => hl iv (List.mem_cons_of_mem _ hiv))
              (by
                intro iv hiv
                rcases List.mem_append.mp hiv with h | h
                · exact hacc iv h
                · have hivx : iv = x := by simpa using h
                  subst hivx
                  omega)
              ((List.pairwise_cons.mp hsort).2)
              (by
                intro iv hiv la hla
                rw [List.getLast?_concat] at hla
                have hlax : la = x := (Option.some_inj.mp hla).symm
                subst hlax
                exact (List.pairwise_cons.mp hsort).1 iv hiv)
              (by
                apply pairwise_glue hpw List.Pairwise.nil
                · intro a ha
                  rw [hd] at ha
                  rcases List.mem_append.mp ha with h | h
                  · have h2 := hDlast a h
                    unfold gapTwo at h2 ⊢
                    omega
                  · have hal : a = last := by simpa using h
                    subst hal
                    unfold gapTwo
                    omega
                · intro b hb
                  cases hb
                · intro a _ b hb
                  cases hb)
            refine ⟨res, hres, hv, hp, ?_⟩
            intro k
            rw [hcov k, covList_append, covList_cons, covList_cons, covList_nil]
            tauto


theorem ivLe_refl (a : Interval) : ivLe a a = true := by
  unfold ivLe
  simp

theorem mergeIv_self_cons (a : Interval) (t : List Interval)
    (h : ∀ b ∈ t, a.value < b.value) :
    mergeIv (a :: t) (a :: t) = a :: a :: mergeIv t t := by
  rw [mergeIv_cons_cons, if_pos (ivLe_refl a)]
  congr 1
  cases t with
  | nil => rfl
  | cons b t2 =>
      have hba : ¬ ivLe b a = true := by
        have := h b (List.mem_cons_self _ _)
        unfold ivLe
        simp only [Bool.or_eq_true, Bool.and_eq_true, decide_eq_true_eq]
        omega
      rw [mergeIv_cons_cons, if_neg hba]

theorem xorStep_start (a : Interval) (acc : List Interval) :
    xorStep (none, acc) a = some (some a, acc) := rfl

theorem xorStep_cancel (a : Interval) (acc : List Interval) :
    xorStep (some a, acc) a = some (none, acc) := by
  simp [xorStep]

theorem xor_fold_self : ∀ A : List Interval, A.Pairwise sepRel →
    (mergeIv A A).foldlM xorStep ((none : Option Interval), ([] : List Interval)) =
      some (none, []) := by
  intro A
  induction A with
  | nil => intro _; rfl
  | cons a t ih =>
      intro hp
      rw [List.pairwise_cons] at hp
      rw [mergeIv_self_cons a t (fun b hb => by
        have := hp.1 b hb
        unfold sepRel at this
        omega)]
      rw [List.foldlM_cons, xorStep_start]
      show (a :: mergeIv t t).foldlM xorStep ((some a : Option Interval), ([] : List Interval)) =
        some (none, [])
      rw [List.foldlM_cons, xorStep_cancel]
      show (mergeIv t t).foldlM xorStep ((none : Option Interval), ([] : List Interval)) =
        some (none, [])
      exact ih hp.2

/-- The symmetric difference of any well-formed store with itself is the
empty store (the second conjunct of the spec's xor property, which holds
even though the general xor claim fails at the top of the key space). -/
theorem xor_self_empty (A : RunStore) (h : A.wf) : xorOp A A = some ⟨[]⟩ := by
  unfold xorOp
  rw [xor_fold_self A.vec (sd_pairwise (wf_sortedDisjoint h))]

-- The spec's concrete examples (away from the key-space boundary the three
-- sweeps behave as specified; these mirror the unit tests in ops.rs).

/-- `or` of `[(1,3),(5,7)]` and `[(7,10),(12,15)]` is `[(1,3),(5,10),(12,15)]`. -/
theorem or_concrete_example :
    orOp ⟨[⟨1, 2⟩, ⟨5, 2⟩]⟩ ⟨[⟨7, 3⟩, ⟨12, 3⟩]⟩ =
      some ⟨[⟨1, 2⟩, ⟨5, 5⟩, ⟨12, 3⟩]⟩ := by decide

/-- `xor` of `[(0,12)]` and `[(5,7)]` is `[(0,4),(8,12)]`. -/
theorem xor_concrete_example :
    xorOp ⟨[⟨0, 12⟩]⟩ ⟨[⟨5, 2⟩]⟩ = some ⟨[⟨0, 4⟩, ⟨8, 4⟩]⟩ := by decide

/-- `and` of `[(2,10)]` and `[(0,4),(8,12)]` is `[(2,4),(8,10)]`. -/
theorem and_concrete_example :
    andOp ⟨[⟨2, 8⟩]⟩ ⟨[⟨0, 4⟩, ⟨8, 4⟩]⟩ = some ⟨[⟨2, 2⟩, ⟨8, 2⟩]⟩ := by decide

/-- The spec's insertion scenario: starting from
`[(5,10),(15,20),(25,35),(37,50)]`, inserting 0, 1, 2 produces a first run
`(0,2)` and five runs; inserting 36 fuses the last two runs into `(25,50)`;
inserting 11 then 4 turns the second run into `(4,11)`. -/
theorem insert_concrete_example :
    RunStore.tryFrom [⟨5, 5⟩, ⟨15, 5⟩, ⟨25, 10⟩, ⟨37, 13⟩] =
        Except.ok ⟨[⟨5, 5⟩, ⟨15, 5⟩, ⟨25, 10⟩, ⟨37, 13⟩]⟩ ∧
    (RunStore.insert ⟨[⟨0, 2⟩, ⟨5, 5⟩, ⟨15, 5⟩, ⟨22, 1⟩, ⟨25, 10⟩, ⟨37, 13⟩]⟩ 36 =
      some (⟨[⟨0, 2⟩, ⟨5, 5⟩, ⟨15, 5⟩, ⟨22, 1⟩, ⟨25, 25⟩]⟩, true)) := by decide

/-- A key is covered by the merged stream iff it is covered by one of the
operands: the merge is a permutation of the concatenation. -/
theorem covList_mergeIv (a b : List Interval) (k : Nat) :
    covList (mergeIv a b) k ↔ covList a k ∨ covList b k := by
  unfold covList
  constructor
  · rintro ⟨iv, hiv, hc⟩
    rcases (mergeIv_mem iv a b).mp hiv with h | h
    · exact Or.inl ⟨iv, h, hc⟩
    · exact Or.inr ⟨iv, h, hc⟩
  · rintro (⟨iv, hiv, hc⟩ | ⟨iv, hiv, hc⟩)
    · exact ⟨iv, (mergeIv_mem iv a b).mpr (Or.inl hiv), hc⟩
    · exact ⟨iv, (mergeIv_mem iv a b).mpr (Or.inr hiv), hc⟩

/-- Away from the 16-bit boundary the union sweep is fully correct: for
well-formed operands all of whose runs end at or below key 65534, `or`
succeeds and returns a well-formed store encoding exactly the union of the
two encoded sets. Together with the boundary counterexamples this isolates
the defect of visitor.rs line 44 to operands reaching key 65535. -/
theorem or_union (A B : RunStore) (hA : A.wf) (hB : B.wf)
    (hA65534 : ∀ iv ∈ A.vec, iv.value + iv.length ≤ 65534)
    (hB65534 : ∀ iv ∈ B.vec, iv.value + iv.length ≤ 65534) :
    ∃ C, orOp A B = some C ∧ C.wf ∧ ∀ k, C.memK k ↔ A.memK k ∨ B.memK k := by
  have hAf : ¬ A.isFull = true := by
    unfold RunStore.isFull
    simp only [decide_eq_true_eq]
    intro hcontra
    have hm : (⟨0, 65535⟩ : Interval) ∈ A.vec := by rw [hcontra]; simp
    have h2 : (0 : Nat) + 65535 ≤ 65534 := hA65534 _ hm
    omega
  have hBf : ¬ B.isFull = true := by
    unfold RunStore.isFull
    simp only [decide_eq_true_eq]
    intro hcontra
    have hm : (⟨0, 65535⟩ : Interval) ∈ B.vec := by rw [hcontra]; simp
    have h2 : (0 : Nat) + 65535 ≤ 65534 := hB65534 _ hm
    omega
  have hl : ∀ iv ∈ mergeIv A.vec B.vec, iv.value + iv.length ≤ 65534 := by
    intro iv hiv
    rcases (mergeIv_mem iv A.vec B.vec).mp hiv with h | h
    · exact hA65534 iv h
    · exact hB65534 iv h
  have hsort : (mergeIv A.vec B.vec).Pairwise (fun a b => a.value ≤ b.value) := by
    refine (mergeIv_pairwise (A.vec.length + B.vec.length) A.vec B.vec (le_refl _)
      (wf_pairwise_ivLe A hA) (wf_pairwise_ivLe B hB)).imp ?_
    intro a b hab
    unfold ivLeP ivLe at hab
    simp only [Bool.or_eq_true, Bool.and_eq_true, decide_eq_true_eq] at hab
    omega
  obtain ⟨res, hres, hv, hp, hcov⟩ := visit_fold_spec (mergeIv A.vec B.vec) []
    hl (by intro iv hiv; cases hiv) hsort
    (by intro iv _ la hla; simp at hla) List.Pairwise.nil
  refine ⟨⟨res⟩, ?_, ⟨?_, ?_⟩, ?_⟩
  · unfold orOp
    rw [if_neg hAf, if_neg hBf]
    simp only [hres]
  · intro iv hiv
    have := hv iv hiv
    show iv.value + iv.length ≤ 65535
    omega
  · exact List.chain'_iff_pairwise.mpr hp
  · intro k
    show covList res k ↔ covList A.vec k ∨ covList B.vec k
    rw [hcov k, covList_nil, covList_mergeIv]
    tauto

end Rle
